import Mathlib

/-!
Verification of the `bigint` class (`src/bigint.hpp`)

A shallow embedding of the arbitrary-precision signed integer type `bigint`
and of its constructors, arithmetic and comparison operators, followed by the
theorems that settle the specification's claims about them.

Modelling conventions

* `std::string` is a `List Char` (most significant digit first), `size_t` is
  `Nat`, `int64_t` intermediate values are `Int` (the digit arithmetic of the
  loops never leaves `[-10, 99]`; the one place where 64-bit wrap-around
  matters, the negation in the native-integer constructor, wraps explicitly).
* `str[i] - '0'` is `digitVal`, an `int` assigned to a `char` is `charOfInt`
  (8-bit narrowing), `std::to_string` is `to_string`.
* A `for` loop is a structural recursion on the number of remaining
  iterations; a `while` loop whose exit depends on data, and the mutual
  delegation between `operator+` and `operator-`, consume one unit of `fuel`
  per iteration or call and return `none` when the fuel is exhausted.
* An exception is the `Except.error` result of the constructor.
-/

namespace BigInt

/-- The class `bigint`: the decimal magnitude `number` and the flag `negative`. -/
structure bigint where
  number : List Char
  negative : Bool
deriving DecidableEq

/-- The expression `c - '0'` on a character, as an integer. -/
def digitVal (c : Char) : Int := (c.toNat : Int) - 48

/-- The narrowing of an integer to an 8-bit character. -/
def charOfInt (x : Int) : Char := Char.ofNat (x % 256).toNat

/-- The library function `std::to_string` on an integer. -/
def to_string (n : Int) : List Char := (toString n).toList

/-- The method `removeZeros`: erase the first character while the string has
more than one character and starts with `'0'`. -/
def removeZeros : List Char → List Char
  | c :: d :: rest => if c = '0' then removeZeros (d :: rest) else c :: d :: rest
  | s => s

/-- The loop of `isValidNumber` over the characters still to be checked. -/
def isValidNumberLoop : List Char → Bool
  | [] => true
  | c :: rest => if c < '0' ∨ c > '9' then false else isValidNumberLoop rest

/-- The method `isValidNumber`: every character from `startIndex` on is a digit. -/
def isValidNumber (str : List Char) (startIndex : Nat) : Bool :=
  isValidNumberLoop (str.drop startIndex)

/-- The default constructor `bigint()`. -/
def default : bigint := ⟨['0'], false⟩

/-- The value of the expression `bigint("0")` returned by the short-circuits
of `operator-` and `operator*` (see `ofString_zero`). -/
def zero : bigint := ⟨['0'], false⟩

/-- The wrap-around of an integer into the signed 64-bit range. -/
def wrap64 (x : Int) : Int := (x + 2 ^ 63) % 2 ^ 64 - 2 ^ 63

/-- The constructor `bigint(const int64_t num)`. -/
def ofInt64 (num : Int) : bigint :=
  if num < 0 then ⟨to_string (wrap64 (-num)), true⟩
  else ⟨to_string num, false⟩

/-- The constructor `bigint(const std::string &num)`. -/
def ofString (num : List Char) : Except String bigint :=
  if num.isEmpty then Except.error "Empty string cannot be converted"
  else
    let negative := num.head? == some '-'
    let startIndex := if num.head? == some '-' then 1 else 0
    if !isValidNumber num startIndex then Except.error "Invalid characters"
    else Except.ok ⟨removeZeros (num.drop startIndex), negative⟩

/-- The stream output `operator<<`: the characters written. -/
def render (num : bigint) : List Char :=
  (if num.negative then ['-'] else []) ++ num.number

/-- The unary `operator-`. -/
def neg (a : bigint) : bigint :=
  let res := a
  let res := if res.number ≠ ['0'] then { res with negative := !res.negative } else res
  let res := if res.number = ['0'] then { res with negative := false } else res
  res

/-- The `operator==`. -/
def beq (a num : bigint) : Bool :=
  if a.number = num.number ∧ a.negative = num.negative then true else false

/-- The digit loop of `operator<`, entered when both magnitudes have the same
size: `k` iterations remain, the index is `number.size() - k`. -/
def ltLoop (number num : List Char) (resultNegative : Bool) : Nat → Bool
  | 0 => false
  | k + 1 =>
    let i := number.length - (k + 1)
    if number.getD i '0' ≠ num.getD i '0' then
      if resultNegative then
        (if number.getD i '0' > num.getD i '0' then true else false)
      else
        (if number.getD i '0' < num.getD i '0' then true else false)
    else ltLoop number num resultNegative k

/-- The `operator<`. -/
def lt (a num : bigint) : Bool :=
  if a.negative ∧ ¬ num.negative then true
  else if ¬ a.negative ∧ num.negative then false
  else
    let resultNegative := a.negative
    if a.number.length ≠ num.number.length then
      if resultNegative then
        (if a.number.length > num.number.length then true else false)
      else
        (if a.number.length < num.number.length then true else false)
    else ltLoop a.number num.number resultNegative a.number.length

/-- The `while` loop of `operator+` in the branch of equal signs. -/
def addLoop (number num : List Char) :
    Nat → Nat → Nat → Int → List Char → Option (List Char)
  | fuel, numberSize, numSize, next, sum =>
    if numberSize > 0 ∨ numSize > 0 ∨ next > 0 then
      match fuel with
      | 0 => none
      | fuel + 1 =>
        let num1 := if numberSize > 0 then digitVal (number.getD (numberSize - 1) '0') else 0
        let numberSize := if numberSize > 0 then numberSize - 1 else numberSize
        let num2 := if numSize > 0 then digitVal (num.getD (numSize - 1) '0') else 0
        let numSize := if numSize > 0 then numSize - 1 else numSize
        let plus := num1 + num2 + next
        addLoop number num fuel numberSize numSize (Int.tdiv plus 10)
          (sum ++ to_string (Int.tmod plus 10))
    else some sum

/-- The `while` loop of `operator-` in the branch of equal signs. -/
def subLoop (larger smaller : List Char) :
    Nat → Nat → Nat → Int → List Char → Option (List Char)
  | fuel, largerSize, smallerSize, before, difference =>
    if largerSize > 0 ∨ smallerSize > 0 ∨ before > 0 then
      match fuel with
      | 0 => none
      | fuel + 1 =>
        let num1 := if largerSize > 0 then digitVal (larger.getD (largerSize - 1) '0') else 0
        let largerSize := if largerSize > 0 then largerSize - 1 else largerSize
        let num2 := if smallerSize > 0 then digitVal (smaller.getD (smallerSize - 1) '0') else 0
        let smallerSize := if smallerSize > 0 then smallerSize - 1 else smallerSize
        let minus := num1 - num2 - before
        let before := if minus < 0 then 1 else 0
        let minus := if minus < 0 then minus + 10 else minus
        subLoop larger smaller fuel largerSize smallerSize before
          (difference ++ to_string minus)
    else some difference

/-- The tail shared by `operator+` and `operator-`: store the reversed digits
and the sign, remove leading zeros, clear the sign of zero. -/
def finish (digits : List Char) (negative : Bool) : bigint :=
  let number := removeZeros digits.reverse
  if number = ['0'] then ⟨number, false⟩ else ⟨number, negative⟩

mutual
/-- The binary `operator+`. -/
def add : Nat → bigint → bigint → Option bigint
  | 0, _, _ => none
  | fuel + 1, a, num =>
    if a.negative = num.negative then
      (addLoop a.number num.number fuel a.number.length num.number.length 0 []).map
        fun sum => finish sum a.negative
    else if a.negative then sub fuel num (neg a)
    else sub fuel a (neg num)
/-- The binary `operator-`. -/
def sub : Nat → bigint → bigint → Option bigint
  | 0, _, _ => none
  | fuel + 1, a, num =>
    if a.number = num.number ∧ a.negative = num.negative then
      some zero
    else if a.negative ≠ num.negative then add fuel a (neg num)
    else
      let larger := if lt a num then num else a
      let smaller := if lt a num then a else num
      let resultNegative := if lt a num then true else false
      (subLoop larger.number smaller.number fuel larger.number.length
        smaller.number.length 0 []).map fun difference => finish difference resultNegative
end

/-- The inner `for` loop of `operator*` in the row `i`: the first argument is
the loop variable `j`, which runs down to `1`; the result is the buffer and the
carry `next` at the exit. -/
def mulInner (number num : List Char) (i : Nat) : Nat → Int → List Char → List Char × Int
  | 0, next, res => (res, next)
  | j + 1, next, res =>
    let mul := digitVal (number.getD (i - 1) '0') * digitVal (num.getD j '0')
      + digitVal (res.getD (i + (j + 1) - 1) '0') + next
    mulInner number num i j (Int.tdiv mul 10)
      (res.set (i + (j + 1) - 1) (charOfInt (Int.tmod mul 10 + 48)))

/-- The outer `for` loop of `operator*`: the first argument is the loop
variable `i`, which runs down to `1`. -/
def mulOuter (number num : List Char) : Nat → List Char → List Char
  | 0, res => res
  | i + 1, res =>
    let row := mulInner number num (i + 1) num.length 0 res
    mulOuter number num i
      (row.1.set i (charOfInt (((row.1.getD i '0').toNat : Int) + row.2)))

/-- The binary `operator*`. -/
def mul (a num : bigint) : bigint :=
  if a.number = ['0'] ∨ num.number = ['0'] then zero
  else
    let size := a.number.length + num.number.length
    let res := mulOuter a.number num.number a.number.length (List.replicate size '0')
    ⟨removeZeros res, if a.negative ≠ num.negative then true else false⟩

/-- The `operator!=`. -/
def ne (a num : bigint) : Bool :=
  if beq a num then false else true

/-- The `operator>`. -/
def gt (a num : bigint) : Bool :=
  if lt a num ∨ beq a num then false else true

/-- The `operator<=`. -/
def le (a num : bigint) : Bool :=
  if lt a num ∨ beq a num then true else false

/-- The `operator>=`. -/
def ge (a num : bigint) : Bool :=
  if gt a num ∨ beq a num then true else false

/-- The pre-increment `operator++()`: the new value of `*this`, which is also
the value returned; the literal `1` goes through the native-integer constructor. -/
def preIncrement (fuel : Nat) (a : bigint) : Option bigint :=
  add fuel a (ofInt64 1)

/-- The post-increment `operator++(int)`: the value returned (the old `*this`)
and the new value of `*this`. -/
def postIncrement (fuel : Nat) (a : bigint) : Option (bigint × bigint) :=
  (add fuel a (ofInt64 1)).map fun next => (a, next)

/-- The pre-decrement `operator--()`: the new value of `*this`, which is also
the value returned. -/
def preDecrement (fuel : Nat) (a : bigint) : Option bigint :=
  sub fuel a (ofInt64 1)

/-- The post-decrement `operator--(int)`: the value returned (the old `*this`)
and the new value of `*this`. -/
def postDecrement (fuel : Nat) (a : bigint) : Option (bigint × bigint) :=
  (sub fuel a (ofInt64 1)).map fun next => (a, next)

/-- What can be observed at one step of the double loop of `operator*`: after
an inner iteration the value `mul`, the new carry `next` and the buffer; after
the statement `res[i-1] += next` that ends a row, the cell `res[i-1]` as it was
before the statement, the carry added and the buffer. -/
inductive MulEvent where
  | cell (mul next : Int) (res : List Char)
  | carry (before : Char) (next : Int) (res : List Char)

/-- The observations of the inner loop of `operator*` in the row `i`, in the
order of execution: the same recursion as `mulInner`. -/
def mulInnerTrace (number num : List Char) (i : Nat) : Nat → Int → List Char → List MulEvent
  | 0, _, _ => []
  | j + 1, next, res =>
    let mul := digitVal (number.getD (i - 1) '0') * digitVal (num.getD j '0')
      + digitVal (res.getD (i + (j + 1) - 1) '0') + next
    MulEvent.cell mul (Int.tdiv mul 10)
        (res.set (i + (j + 1) - 1) (charOfInt (Int.tmod mul 10 + 48))) ::
      mulInnerTrace number num i j (Int.tdiv mul 10)
        (res.set (i + (j + 1) - 1) (charOfInt (Int.tmod mul 10 + 48)))

/-- The observations of the double loop of `operator*`, in the order of
execution: the same recursion as `mulOuter`. -/
def mulOuterTrace (number num : List Char) : Nat → List Char → List MulEvent
  | 0, _ => []
  | i + 1, res =>
    let row := mulInner number num (i + 1) num.length 0 res
    mulInnerTrace number num (i + 1) num.length 0 res ++
      MulEvent.carry (row.1.getD i '0') row.2
          (row.1.set i (charOfInt (((row.1.getD i '0').toNat : Int) + row.2))) ::
        mulOuterTrace number num i
          (row.1.set i (charOfInt (((row.1.getD i '0').toNat : Int) + row.2)))

/-- The `while` loop of `operator-` with its whole state at the exit: the same
recursion as `subLoop`, returning `largerSize`, `smallerSize`, the final borrow
`before` and `difference`. -/
def subLoopExit (larger smaller : List Char) :
    Nat → Nat → Nat → Int → List Char → Option (Nat × Nat × Int × List Char)
  | fuel, largerSize, smallerSize, before, difference =>
    if largerSize > 0 ∨ smallerSize > 0 ∨ before > 0 then
      match fuel with
      | 0 => none
      | fuel + 1 =>
        let num1 := if largerSize > 0 then digitVal (larger.getD (largerSize - 1) '0') else 0
        let largerSize := if largerSize > 0 then largerSize - 1 else largerSize
        let num2 := if smallerSize > 0 then digitVal (smaller.getD (smallerSize - 1) '0') else 0
        let smallerSize := if smallerSize > 0 then smallerSize - 1 else smallerSize
        let minus := num1 - num2 - before
        let before := if minus < 0 then 1 else 0
        let minus := if minus < 0 then minus + 10 else minus
        subLoopExit larger smaller fuel largerSize smallerSize before
          (difference ++ to_string minus)
    else some (largerSize, smallerSize, before, difference)

mutual
/-- The binary `operator+` with, next to its result, the final borrow of every
borrow loop that ran on the way: the same recursion as `add`. -/
def addBorrow : Nat → bigint → bigint → Option (bigint × List Int)
  | 0, _, _ => none
  | fuel + 1, a, num =>
    if a.negative = num.negative then
      (addLoop a.number num.number fuel a.number.length num.number.length 0 []).map
        fun sum => (finish sum a.negative, [])
    else if a.negative then subBorrow fuel num (neg a)
    else subBorrow fuel a (neg num)
/-- The binary `operator-` with, next to its result, the final borrow of every
borrow loop that ran on the way: the same recursion as `sub`. -/
def subBorrow : Nat → bigint → bigint → Option (bigint × List Int)
  | 0, _, _ => none
  | fuel + 1, a, num =>
    if a.number = num.number ∧ a.negative = num.negative then
      some (zero, [])
    else if a.negative ≠ num.negative then addBorrow fuel a (neg num)
    else
      let larger := if lt a num then num else a
      let smaller := if lt a num then a else num
      let resultNegative := if lt a num then true else false
      (subLoopExit larger.number smaller.number fuel larger.number.length
        smaller.number.length 0 []).map
        fun state => (finish state.2.2.2 resultNegative, [state.2.2.1])
end

/-! ## The vocabulary of the specification -/

/-- A decimal digit character `'0'..'9'`. -/
def isDigit (c : Char) : Prop := '0' ≤ c ∧ c ≤ '9'

instance (c : Char) : Decidable (isDigit c) := by unfold isDigit; infer_instance

/-- The invariant of the data model: the magnitude is a non-empty string of
digits, without a leading zero unless it is `"0"`, and zero is not negative. -/
def wellFormed (a : bigint) : Prop :=
  a.number ≠ [] ∧ (∀ c ∈ a.number, isDigit c) ∧
    (a.number.head? = some '0' → a.number = ['0']) ∧
    (a.number = ['0'] → a.negative = false)

instance (a : bigint) : Decidable (wellFormed a) := by unfold wellFormed; infer_instance

/-- The value of one digit character as a natural number. -/
def digitNat (c : Char) : Nat := c.toNat - 48

/-- The decimal value of a magnitude, most significant digit first. -/
def natVal (s : List Char) : Nat := s.foldl (fun acc c => 10 * acc + digitNat c) 0

/-- The integer meaning of a value: the magnitude, negated when the sign flag is set. -/
def toInt (a : bigint) : Int := if a.negative then -(natVal a.number : Int) else natVal a.number

/-- The characters of a string after one optional leading `'-'`. -/
def afterSign (s : List Char) : List Char := if s.head? = some '-' then s.tail else s

/-- The canonical form of a signed decimal string, in the words of the
specification: the digits with leading zeros removed (keeping one digit),
prefixed by `'-'` exactly when the string starts with `'-'` and its digits are
not all zero. -/
def canonical_form (s : List Char) : List Char :=
  let digits := (afterSign s).dropWhile (fun c => c == '0')
  let digits := if digits = [] then ['0'] else digits
  (if s.head? = some '-' ∧ ¬ (∀ c ∈ afterSign s, c = '0') then ['-'] else []) ++ digits

/-- The safety condition of one observation of the multiplication, for a
buffer of `size` cells: `mul` is within `0..99`, the carry within `0..9`, a cell
that receives a row's final carry held `'0'`, and every cell of the buffer is a
decimal digit. -/
def MulEvent.safe (size : Nat) : MulEvent → Prop
  | MulEvent.cell mul next res =>
    0 ≤ mul ∧ mul ≤ 99 ∧ 0 ≤ next ∧ next ≤ 9 ∧ res.length = size ∧ ∀ c ∈ res, isDigit c
  | MulEvent.carry before next res =>
    before = '0' ∧ 0 ≤ next ∧ next ≤ 9 ∧ res.length = size ∧ ∀ c ∈ res, isDigit c

/-- The buffer `res` as it stands after the step of an observation. -/
def MulEvent.buffer : MulEvent → List Char
  | MulEvent.cell _ _ res => res
  | MulEvent.carry _ _ res => res

/-! ## Digits and decimal values -/

theorem isDigit_iff (c : Char) : isDigit c ↔ 48 ≤ c.toNat ∧ c.toNat ≤ 57 := by
  unfold isDigit
  rw [Char.le_def, Char.le_def, UInt32.le_def, UInt32.le_def]
  rfl

theorem digitNat_le {c : Char} (h : isDigit c) : digitNat c ≤ 9 := by
  rw [isDigit_iff] at h
  unfold digitNat
  omega

theorem digitVal_eq {c : Char} (h : isDigit c) : digitVal c = (digitNat c : Int) := by
  rw [isDigit_iff] at h
  unfold digitVal digitNat
  omega

/-- The table of the ten decimal digits: how each prints, how each narrows to a
character, and its value. -/
theorem digit_table : ∀ k : Nat, k < 10 →
    to_string (k : Int) = [Char.ofNat (48 + k)] ∧ charOfInt ((k : Int) + 48) = Char.ofNat (48 + k) ∧
      isDigit (Char.ofNat (48 + k)) ∧ digitNat (Char.ofNat (48 + k)) = k := by
  decide

/-- A one-digit integer prints as one digit character of that value. -/
theorem to_string_digit {d : Int} (h0 : 0 ≤ d) (h9 : d ≤ 9) :
    ∃ c, to_string d = [c] ∧ isDigit c ∧ (digitNat c : Int) = d := by
  obtain ⟨t1, _, t3, t4⟩ := digit_table d.toNat (by omega)
  rw [Int.toNat_of_nonneg h0] at t1
  exact ⟨_, t1, t3, by rw [t4]; exact Int.toNat_of_nonneg h0⟩

theorem charOfInt_digit {d : Int} (h0 : 0 ≤ d) (h9 : d ≤ 9) :
    isDigit (charOfInt (d + 48)) ∧ (digitNat (charOfInt (d + 48)) : Int) = d := by
  obtain ⟨_, t2, t3, t4⟩ := digit_table d.toNat (by omega)
  rw [Int.toNat_of_nonneg h0] at t2
  rw [t2]
  exact ⟨t3, by rw [t4]; exact Int.toNat_of_nonneg h0⟩

theorem natVal_append_singleton (l : List Char) (c : Char) :
    natVal (l ++ [c]) = 10 * natVal l + digitNat c := by
  simp [natVal, List.foldl_append]
theorem natVal_take_step (l : List Char) (i : Nat) (hi : i ≤ l.length) :
    natVal (l.take i) = 10 * natVal (l.take (if i > 0 then i - 1 else i))
      + (if i > 0 then digitNat (l.getD (i - 1) '0') else 0) := by
  cases i with
  | zero => simp [natVal]
  | succ i =>
    have hi' : i < l.length := hi
    simp only [Nat.succ_pos, if_true, Nat.add_sub_cancel, gt_iff_lt]
    rw [List.getD_eq_getElem _ _ hi', List.take_succ, List.getElem?_eq_getElem hi']
    exact natVal_append_singleton _ _

theorem isDigit_getD {l : List Char} (hl : ∀ c ∈ l, isDigit c) (k : Nat) :
    isDigit (l.getD k '0') := by
  by_cases hk : k < l.length
  · rw [List.getD_eq_getElem _ _ hk]
    exact hl _ (List.getElem_mem _)
  · rw [List.getD_eq_default _ _ (by omega)]
    decide

/-- One reading step of the addition and subtraction loops: the digit read at
index `i - 1` (or `0` when the operand is exhausted) and the new index. -/
theorem read_digit {l : List Char} (hl : ∀ c ∈ l, isDigit c) (i : Nat) (hi : i ≤ l.length) :
    ∃ (d i' : Nat), d ≤ 9 ∧
      (if i > 0 then digitVal (l.getD (i - 1) '0') else 0) = (d : Int) ∧
      (if i > 0 then i - 1 else i) = i' ∧
      natVal (l.take i) = 10 * natVal (l.take i') + d ∧
      i' ≤ l.length ∧ ((i = 0 ∧ i' = 0 ∧ d = 0) ∨ i' + 1 = i) := by
  refine ⟨if i > 0 then digitNat (l.getD (i - 1) '0') else 0, if i > 0 then i - 1 else i,
    ?_, ?_, rfl, natVal_take_step l i hi, ?_, ?_⟩
  · split
    · exact digitNat_le (isDigit_getD hl _)
    · omega
  · split
    · exact digitVal_eq (isDigit_getD hl _)
    · rfl
  · split <;> omega
  · split <;> omega

theorem natVal_reverse_cons (c : Char) (out : List Char) :
    natVal (c :: out).reverse = 10 * natVal out.reverse + digitNat c := by
  rw [List.reverse_cons, natVal_append_singleton]

theorem addLoop_done (number num : List Char) (fuel : Nat) (sum : List Char) :
    addLoop number num fuel 0 0 0 sum = some sum := by
  cases fuel <;> simp [addLoop]

theorem addLoop_succ (number num : List Char) (fuel i j : Nat) (next : Int) (sum : List Char)
    (h : i > 0 ∨ j > 0 ∨ next > 0) :
    addLoop number num (fuel + 1) i j next sum =
      addLoop number num fuel (if i > 0 then i - 1 else i) (if j > 0 then j - 1 else j)
        (Int.tdiv ((if i > 0 then digitVal (number.getD (i - 1) '0') else 0)
          + (if j > 0 then digitVal (num.getD (j - 1) '0') else 0) + next) 10)
        (sum ++ to_string (Int.tmod ((if i > 0 then digitVal (number.getD (i - 1) '0') else 0)
          + (if j > 0 then digitVal (num.getD (j - 1) '0') else 0) + next) 10)) := by
  rw [addLoop, if_pos h]

/-- The arithmetic of one column of the addition. -/
theorem add_column {d1 d2 : Nat} {next : Int} (hd1 : d1 ≤ 9) (hd2 : d2 ≤ 9) (h0 : 0 ≤ next)
    (h1 : next ≤ 1) :
    Int.tdiv ((d1 : Int) + d2 + next) 10 = ((d1 : Int) + d2 + next) / 10 ∧
    Int.tmod ((d1 : Int) + d2 + next) 10 = ((d1 : Int) + d2 + next) % 10 ∧
    0 ≤ ((d1 : Int) + d2 + next) / 10 ∧ ((d1 : Int) + d2 + next) / 10 ≤ 1 ∧
    (d1 = 0 → d2 = 0 → ((d1 : Int) + d2 + next) / 10 = 0) ∧
    0 ≤ ((d1 : Int) + d2 + next) % 10 ∧ ((d1 : Int) + d2 + next) % 10 ≤ 9 := by
  have hp0 : (0 : Int) ≤ (d1 : Int) + d2 + next := by omega
  refine ⟨Int.tdiv_eq_ediv hp0 (by norm_num), Int.tmod_eq_emod hp0 (by norm_num),
    ?_, ?_, ?_, ?_, ?_⟩ <;>
    omega

theorem fuel_step {i j i' j' d1 d2 fuel : Nat} {next q : Int}
    (s1 : (i = 0 ∧ i' = 0 ∧ d1 = 0) ∨ i' + 1 = i) (s2 : (j = 0 ∧ j' = 0 ∧ d2 = 0) ∨ j' + 1 = j)
    (hc : i > 0 ∨ j > 0 ∨ next > 0) (h0 : 0 ≤ next) (h1 : next ≤ 1) (q0 : 0 ≤ q) (q1 : q ≤ 1)
    (hq : d1 = 0 → d2 = 0 → q = 0)
    (hf : 2 * (i + j) + next.toNat ≤ fuel + 1) : 2 * (i' + j') + q.toNat ≤ fuel := by
  omega

theorem add_value_step {A B A' B' d1 d2 V' dc : Nat} {next : Int}
    (ho4 : (V' : Int) = A' + B' + ((d1 : Int) + d2 + next) / 10)
    (v1 : A = 10 * A' + d1) (v2 : B = 10 * B' + d2)
    (hc3 : (dc : Int) = ((d1 : Int) + d2 + next) % 10) :
    ((10 * V' + dc : Nat) : Int) = A + B + next := by
  push_cast
  rw [ho4, v1, v2, hc3]
  push_cast
  omega

theorem index_step {i i' d1 n : Nat} (s1 : (i = 0 ∧ i' = 0 ∧ d1 = 0) ∨ i' + 1 = i) (h : i' ≤ n) :
    i ≤ n + 1 := by omega

theorem addLoop_spec {number num : List Char} (hn : ∀ c ∈ number, isDigit c)
    (hm : ∀ c ∈ num, isDigit c) :
    ∀ (fuel i j : Nat) (next : Int) (sum : List Char), i ≤ number.length → j ≤ num.length →
      0 ≤ next → next ≤ 1 → 2 * (i + j) + next.toNat ≤ fuel →
      ∃ out, addLoop number num fuel i j next sum = some (sum ++ out) ∧
        (∀ c ∈ out, isDigit c) ∧ i ≤ out.length ∧
        (natVal out.reverse : Int) = natVal (number.take i) + natVal (num.take j) + next := by
  intro fuel
  induction fuel with
  | zero =>
    intro i j next sum _ _ h0 h1 hf
    have hi : i = 0 := by omega
    have hj : j = 0 := by omega
    have hx : next = 0 := by omega
    subst hi hj hx
    exact ⟨[], by rw [addLoop_done]; simp, by simp, by simp, by simp [natVal]⟩
  | succ fuel ih =>
    intro i j next sum hi hj h0 h1 hf
    by_cases hc : i > 0 ∨ j > 0 ∨ next > 0
    · rw [addLoop_succ _ _ _ _ _ _ _ hc]
      obtain ⟨d1, i', hd1, e1, ei, v1, b1, s1⟩ := read_digit hn i hi
      obtain ⟨d2, j', hd2, e2, ej, v2, b2, s2⟩ := read_digit hm j hj
      rw [e1, e2, ei, ej]
      obtain ⟨hq, hr, q0, q1, qz, r0, r9⟩ := add_column hd1 hd2 h0 h1
      rw [hq, hr]
      obtain ⟨c, hc1, hc2, hc3⟩ := to_string_digit r0 r9
      rw [hc1]
      have hfuel := fuel_step s1 s2 hc h0 h1 q0 q1 qz hf
      obtain ⟨out, ho1, ho2, ho3, ho4⟩ := ih i' j' _ (sum ++ [c]) b1 b2 q0 q1 hfuel
      refine ⟨c :: out, ?_, ?_, ?_, ?_⟩
      · rw [ho1]; simp
      · intro x hx
        rcases List.mem_cons.mp hx with rfl | hx
        · exact hc2
        · exact ho2 x hx
      · exact index_step s1 ho3
      · rw [natVal_reverse_cons]
        exact add_value_step ho4 v1 v2 hc3
    · have hi : i = 0 := by omega
      have hj : j = 0 := by omega
      have hx : next = 0 := by omega
      subst hi hj hx
      exact ⟨[], by rw [addLoop_done]; simp, by simp, by simp, by simp [natVal]⟩

theorem subLoop_done (larger smaller : List Char) (fuel : Nat) (difference : List Char) :
    subLoop larger smaller fuel 0 0 0 difference = some difference := by
  cases fuel <;> simp [subLoop]

theorem subLoop_zero (larger smaller : List Char) (i j : Nat) (before : Int)
    (difference : List Char) (h : i > 0 ∨ j > 0 ∨ before > 0) :
    subLoop larger smaller 0 i j before difference = none := by
  rw [subLoop, if_pos h]

theorem subLoop_succ (larger smaller : List Char) (fuel i j : Nat) (before : Int)
    (difference : List Char) (h : i > 0 ∨ j > 0 ∨ before > 0) :
    subLoop larger smaller (fuel + 1) i j before difference =
      subLoop larger smaller fuel (if i > 0 then i - 1 else i) (if j > 0 then j - 1 else j)
        (if (if i > 0 then digitVal (larger.getD (i - 1) '0') else 0)
          - (if j > 0 then digitVal (smaller.getD (j - 1) '0') else 0) - before < 0 then 1 else 0)
        (difference ++ to_string
          (if (if i > 0 then digitVal (larger.getD (i - 1) '0') else 0)
            - (if j > 0 then digitVal (smaller.getD (j - 1) '0') else 0) - before < 0
          then (if i > 0 then digitVal (larger.getD (i - 1) '0') else 0)
            - (if j > 0 then digitVal (smaller.getD (j - 1) '0') else 0) - before + 10
          else (if i > 0 then digitVal (larger.getD (i - 1) '0') else 0)
            - (if j > 0 then digitVal (smaller.getD (j - 1) '0') else 0) - before)) := by
  rw [subLoop, if_pos h]

/-- The arithmetic of one column of the subtraction when no final borrow is pending. -/
theorem sub_column {A B A' B' d1 d2 : Nat} {before : Int} (hd1 : d1 ≤ 9) (hd2 : d2 ≤ 9)
    (h0 : 0 ≤ before) (h1 : before ≤ 1) (v1 : A = 10 * A' + d1) (v2 : B = 10 * B' + d2)
    (hinv : (B : Int) + before ≤ A) :
    ∃ (b' m : Int), (if (d1 : Int) - d2 - before < 0 then (1 : Int) else 0) = b' ∧
      (if (d1 : Int) - d2 - before < 0 then (d1 : Int) - d2 - before + 10
        else (d1 : Int) - d2 - before) = m ∧
      0 ≤ b' ∧ b' ≤ 1 ∧ 0 ≤ m ∧ m ≤ 9 ∧ (B' : Int) + b' ≤ A' ∧
      ∀ V' : Int, V' + B' + b' = A' → 10 * V' + m + B + before = A := by
  subst v1 v2
  by_cases h : (d1 : Int) - d2 - before < 0
  · refine ⟨1, (d1 : Int) - d2 - before + 10, by rw [if_pos h], by rw [if_pos h], ?_, ?_, ?_, ?_,
      ?_, ?_⟩ <;> push_cast at * <;> omega
  · refine ⟨0, (d1 : Int) - d2 - before, by rw [if_neg h], by rw [if_neg h], ?_, ?_, ?_, ?_,
      ?_, ?_⟩ <;> push_cast at * <;> omega

theorem sub_fuel_step {i j i' j' d1 d2 A B fuel : Nat} {before : Int}
    (s1 : (i = 0 ∧ i' = 0 ∧ d1 = 0) ∨ i' + 1 = i) (s2 : (j = 0 ∧ j' = 0 ∧ d2 = 0) ∨ j' + 1 = j)
    (hc : i > 0 ∨ j > 0 ∨ before > 0) (hA : i = 0 → A = 0)
    (hinv : (B : Int) + before ≤ A)
    (hf : i + j ≤ fuel + 1) : i' + j' ≤ fuel := by
  omega

theorem natVal_take_zero (l : List Char) : natVal (l.take 0) = 0 := by simp [natVal]

theorem subLoop_spec {larger smaller : List Char} (hl : ∀ c ∈ larger, isDigit c)
    (hs : ∀ c ∈ smaller, isDigit c) :
    ∀ (fuel i j : Nat) (before : Int) (difference : List Char), i ≤ larger.length →
      j ≤ smaller.length → 0 ≤ before → before ≤ 1 →
      (natVal (smaller.take j) : Int) + before ≤ natVal (larger.take i) → i + j ≤ fuel →
      ∃ out, subLoop larger smaller fuel i j before difference = some (difference ++ out) ∧
        (∀ c ∈ out, isDigit c) ∧ i ≤ out.length ∧
        (natVal out.reverse : Int) + natVal (smaller.take j) + before
          = natVal (larger.take i) := by
  intro fuel
  induction fuel with
  | zero =>
    intro i j before difference _ _ h0 h1 hinv hf
    have hi : i = 0 := by omega
    have hj : j = 0 := by omega
    subst hi hj
    rw [natVal_take_zero, natVal_take_zero] at hinv
    have hx : before = 0 := by omega
    subst hx
    exact ⟨[], by rw [subLoop_done]; simp, by simp, by simp, by simp [natVal]⟩
  | succ fuel ih =>
    intro i j before difference hi hj h0 h1 hinv hf
    by_cases hc : i > 0 ∨ j > 0 ∨ before > 0
    · rw [subLoop_succ _ _ _ _ _ _ _ hc]
      obtain ⟨d1, i', hd1, e1, ei, v1, b1, s1⟩ := read_digit hl i hi
      obtain ⟨d2, j', hd2, e2, ej, v2, b2, s2⟩ := read_digit hs j hj
      rw [e1, e2, ei, ej]
      obtain ⟨b', m, eb, em, hb0, hb1, hm0, hm9, hinv', hval⟩ :=
        sub_column hd1 hd2 h0 h1 v1 v2 hinv
      rw [eb, em]
      obtain ⟨c, hc1, hc2, hc3⟩ := to_string_digit hm0 hm9
      rw [hc1]
      have hA : i = 0 → natVal (larger.take i) = 0 := by
        intro h; subst h; exact natVal_take_zero _
      have hfuel := sub_fuel_step s1 s2 hc hA hinv hf
      obtain ⟨out, ho1, ho2, ho3, ho4⟩ := ih i' j' b' (difference ++ [c]) b1 b2 hb0 hb1 hinv' hfuel
      refine ⟨c :: out, ?_, ?_, ?_, ?_⟩
      · rw [ho1]; simp
      · intro x hx
        rcases List.mem_cons.mp hx with rfl | hx
        · exact hc2
        · exact ho2 x hx
      · exact index_step s1 ho3
      · rw [natVal_reverse_cons]
        push_cast
        rw [hc3]
        exact hval _ ho4
    · have hi : i = 0 := by omega
      have hj : j = 0 := by omega
      have hx : before = 0 := by omega
      subst hi hj hx
      exact ⟨[], by rw [subLoop_done]; simp, by simp, by simp, by simp [natVal]⟩

/-- The arithmetic of one column of the subtraction when the minuend is too small. -/
theorem sub_column_neg {A B A' B' d1 d2 : Nat} {before : Int} (hd1 : d1 ≤ 9) (hd2 : d2 ≤ 9)
    (h0 : 0 ≤ before) (h1 : before ≤ 1) (v1 : A = 10 * A' + d1) (v2 : B = 10 * B' + d2)
    (hinv : (A : Int) < B + before) :
    ∃ (b' : Int), (if (d1 : Int) - d2 - before < 0 then (1 : Int) else 0) = b' ∧
      0 ≤ b' ∧ b' ≤ 1 ∧ (A' : Int) < B' + b' := by
  subst v1 v2
  by_cases h : (d1 : Int) - d2 - before < 0
  · refine ⟨1, by rw [if_pos h], ?_, ?_, ?_⟩ <;> omega
  · refine ⟨0, by rw [if_neg h], ?_, ?_, ?_⟩ <;> omega

/-- The borrow loop never exits when the value still to be subtracted (with the
pending borrow) exceeds what is left of the minuend. -/
theorem subLoop_diverges {larger smaller : List Char} (hl : ∀ c ∈ larger, isDigit c)
    (hs : ∀ c ∈ smaller, isDigit c) :
    ∀ (fuel i j : Nat) (before : Int) (difference : List Char), i ≤ larger.length →
      j ≤ smaller.length → 0 ≤ before → before ≤ 1 →
      (natVal (larger.take i) : Int) < natVal (smaller.take j) + before →
      subLoop larger smaller fuel i j before difference = none := by
  intro fuel
  induction fuel with
  | zero =>
    intro i j before difference _ _ h0 h1 hinv
    apply subLoop_zero
    by_contra hc
    have hi : i = 0 := by omega
    have hj : j = 0 := by omega
    subst hi hj
    rw [natVal_take_zero, natVal_take_zero] at hinv
    omega
  | succ fuel ih =>
    intro i j before difference hi hj h0 h1 hinv
    have hc : i > 0 ∨ j > 0 ∨ before > 0 := by
      by_contra hc
      have hi : i = 0 := by omega
      have hj : j = 0 := by omega
      subst hi hj
      rw [natVal_take_zero, natVal_take_zero] at hinv
      omega
    rw [subLoop_succ _ _ _ _ _ _ _ hc]
    obtain ⟨d1, i', hd1, e1, ei, v1, b1, s1⟩ := read_digit hl i hi
    obtain ⟨d2, j', hd2, e2, ej, v2, b2, s2⟩ := read_digit hs j hj
    rw [e1, e2, ei, ej]
    obtain ⟨b', eb, hb0, hb1, hinv'⟩ := sub_column_neg hd1 hd2 h0 h1 v1 v2 hinv
    rw [eb]
    exact ih i' j' b' _ b1 b2 hb0 hb1 hinv'


theorem natVal_nil : natVal [] = 0 := rfl

theorem foldl_natVal (l : List Char) (acc : Nat) :
    l.foldl (fun acc c => 10 * acc + digitNat c) acc = acc * 10 ^ l.length + natVal l := by
  induction l generalizing acc with
  | nil => simp [natVal]
  | cons c l ih =>
    simp only [List.foldl_cons, natVal, List.length_cons]
    rw [ih, ih (10 * 0 + digitNat c)]
    ring

theorem natVal_cons (c : Char) (l : List Char) :
    natVal (c :: l) = digitNat c * 10 ^ l.length + natVal l := by
  simp only [natVal, List.foldl_cons]
  rw [foldl_natVal]
  simp [natVal]

theorem natVal_lt_pow {l : List Char} (h : ∀ c ∈ l, isDigit c) : natVal l < 10 ^ l.length := by
  induction l with
  | nil => simp [natVal]
  | cons c l ih =>
    rw [natVal_cons, List.length_cons, pow_succ]
    have h1 := digitNat_le (h c (List.mem_cons_self _ _))
    have h2 := ih (fun d hd => h d (List.mem_cons_of_mem _ hd))
    nlinarith

/-! ## Canonical magnitudes -/

theorem digit_eq_zero {c : Char} (hz : digitNat c = 0) (h : isDigit c) : c = '0' := by
  rw [isDigit_iff] at h
  unfold digitNat at hz
  have h48 : c.toNat = 48 := by omega
  rw [← Char.ofNat_toNat c, h48]

theorem digitNat_zero : digitNat '0' = 0 := rfl

theorem natVal_singleton (c : Char) : natVal [c] = digitNat c := by
  simp [natVal]

theorem removeZeros_mem : ∀ (l : List Char) (c : Char), c ∈ removeZeros l → c ∈ l
  | [], _, h => by simp [removeZeros] at h
  | [_], _, h => by simpa [removeZeros] using h
  | x :: y :: rest, c, h => by
    rw [removeZeros] at h
    split at h
    · exact List.mem_cons_of_mem _ (removeZeros_mem (y :: rest) c h)
    · exact h

theorem removeZeros_ne_nil : ∀ (l : List Char), l ≠ [] → removeZeros l ≠ []
  | [], h => absurd rfl h
  | [_], _ => by simp [removeZeros]
  | x :: y :: rest, _ => by
    rw [removeZeros]
    split
    · exact removeZeros_ne_nil (y :: rest) (by simp)
    · simp

theorem removeZeros_head : ∀ (l : List Char),
    (removeZeros l).head? = some '0' → removeZeros l = ['0']
  | [], h => by simp [removeZeros] at h
  | [x], h => by
    simp only [removeZeros, List.head?_cons, Option.some.injEq] at h
    simp [removeZeros, h]
  | x :: y :: rest, h => by
    rw [removeZeros] at h ⊢
    split at h
    · rename_i hx
      rw [if_pos hx]
      exact removeZeros_head (y :: rest) h
    · rename_i hx
      simp only [List.head?_cons, Option.some.injEq] at h
      exact absurd h hx

theorem natVal_removeZeros : ∀ (l : List Char), natVal (removeZeros l) = natVal l
  | [] => rfl
  | [_] => rfl
  | x :: y :: rest => by
    rw [removeZeros]
    split
    · rename_i hx
      rw [natVal_removeZeros (y :: rest), natVal_cons x, hx, digitNat_zero]
      simp
    · rfl

theorem removeZeros_of_canonical : ∀ (l : List Char), (l.head? = some '0' → l = ['0']) →
    removeZeros l = l
  | [], _ => rfl
  | [_], _ => rfl
  | x :: y :: rest, h => by
    rw [removeZeros]
    split
    · rename_i hx
      have := h (by simp [hx])
      simp at this
    · rfl

/-- A canonical magnitude other than `"0"` is at least `10 ^ (length - 1)`. -/
theorem pow_le_natVal {s : List Char} (hd : ∀ c ∈ s, isDigit c)
    (hz : s.head? = some '0' → s = ['0']) (hne : s ≠ []) (h0 : s ≠ ['0']) :
    10 ^ (s.length - 1) ≤ natVal s := by
  cases s with
  | nil => exact absurd rfl hne
  | cons c rest =>
    rw [natVal_cons, List.length_cons, Nat.add_sub_cancel]
    have hc : digitNat c ≠ 0 := by
      intro h
      have hc0 := digit_eq_zero h (hd c (List.mem_cons_self _ _))
      subst hc0
      exact h0 (hz rfl)
    have : 1 ≤ digitNat c := Nat.one_le_iff_ne_zero.mpr hc
    have hp : 0 < 10 ^ rest.length := pow_pos (by norm_num) _
    nlinarith [Nat.zero_le (natVal rest)]

theorem natVal_eq_zero_iff {s : List Char} (hd : ∀ c ∈ s, isDigit c)
    (hz : s.head? = some '0' → s = ['0']) (hne : s ≠ []) : natVal s = 0 ↔ s = ['0'] := by
  constructor
  · intro h
    by_contra h0
    have := pow_le_natVal hd hz hne h0
    have hp : 0 < 10 ^ (s.length - 1) := pow_pos (by norm_num) _
    omega
  · intro h; subst h; rfl

theorem natVal_lt_of_length_lt {s t : List Char} (hs : ∀ c ∈ s, isDigit c)
    (ht : ∀ c ∈ t, isDigit c) (hz : t.head? = some '0' → t = ['0'])
    (hs0 : s ≠ []) (h : s.length < t.length) : natVal s < natVal t := by
  have h1 := natVal_lt_pow hs
  have hlen : 0 < s.length := List.length_pos.mpr hs0
  have ht2 : 2 ≤ t.length := by omega
  have h2 := pow_le_natVal ht hz (by intro h'; rw [h'] at ht2; simp at ht2) (by
    intro h'; rw [h'] at ht2; simp at ht2)
  have h3 : 10 ^ s.length ≤ 10 ^ (t.length - 1) :=
    Nat.pow_le_pow_right (by norm_num) (by omega)
  omega

/-! ## The result tail, negation -/

theorem finish_spec (digits : List Char) (negative : Bool) (hd : ∀ c ∈ digits, isDigit c)
    (hne : digits ≠ []) :
    wellFormed (finish digits negative) ∧
      toInt (finish digits negative) =
        if negative then -(natVal digits.reverse : Int) else natVal digits.reverse := by
  have hrne : digits.reverse ≠ [] := by simpa using hne
  have hmem : ∀ c ∈ removeZeros digits.reverse, isDigit c := fun c hc =>
    hd c (List.mem_reverse.mp (removeZeros_mem _ c hc))
  unfold finish
  simp only []
  split
  · rename_i h0
    refine ⟨⟨removeZeros_ne_nil _ hrne, hmem, removeZeros_head _, fun _ => rfl⟩, ?_⟩
    have hv : natVal digits.reverse = 0 := by
      rw [← natVal_removeZeros, h0]; rfl
    simp only [toInt]
    rw [natVal_removeZeros, hv]
    simp
  · rename_i h0
    refine ⟨⟨removeZeros_ne_nil _ hrne, hmem, removeZeros_head _, fun h => absurd h h0⟩, ?_⟩
    simp only [toInt]
    rw [natVal_removeZeros]

theorem neg_spec {a : bigint} (ha : wellFormed a) :
    wellFormed (neg a) ∧ toInt (neg a) = -toInt a ∧ (neg a).number = a.number ∧
      (a.number ≠ ['0'] → (neg a).negative = !a.negative) := by
  obtain ⟨h1, h2, h3, h4⟩ := ha
  by_cases h0 : a.number = ['0']
  · have hn : neg a = a := by
      cases a with
      | mk number negative =>
        simp only at h0 h4
        simp [neg, h0, h4 h0]
    rw [hn]
    refine ⟨⟨h1, h2, h3, h4⟩, ?_, rfl, fun h => absurd h0 h⟩
    simp [toInt, h0, natVal, digitNat]
  · have hn : neg a = ⟨a.number, !a.negative⟩ := by
      simp [neg, h0]
    rw [hn]
    refine ⟨⟨h1, h2, h3, fun h => absurd h h0⟩, ?_, rfl, fun _ => rfl⟩
    cases hs : a.negative <;> simp [toInt, hs]

theorem natVal_pos {a : bigint} (ha : wellFormed a) (hn : a.negative = true) :
    0 < natVal a.number := by
  obtain ⟨h1, h2, h3, h4⟩ := ha
  have h0 : a.number ≠ ['0'] := fun h => by
    have := h4 h; rw [hn] at this; exact Bool.noConfusion this
  have := (natVal_eq_zero_iff h2 h3 h1).not.mpr h0
  omega

/-! ## The comparison -/

theorem char_lt_iff {c d : Char} (hc : isDigit c) (hd : isDigit d) :
    c < d ↔ digitNat c < digitNat d := by
  rw [isDigit_iff] at hc hd
  rw [Char.lt_def, UInt32.lt_def]
  show c.toNat < d.toNat ↔ _
  unfold digitNat
  omega

theorem char_ne_iff {c d : Char} (hc : isDigit c) (hd : isDigit d) :
    c ≠ d ↔ digitNat c ≠ digitNat d := by
  constructor
  · intro h he
    apply h
    rw [isDigit_iff] at hc hd
    unfold digitNat at he
    have : c.toNat = d.toNat := by omega
    rw [← Char.ofNat_toNat c, ← Char.ofNat_toNat d, this]
  · intro h he
    exact h (by rw [he])

/-- Comparing two numbers of the same width by their leading digits. -/
theorem lead_compare {c d r1 r2 P : Nat} (h1 : r1 < P) (h2 : r2 < P) :
    (c < d → c * P + r1 < d * P + r2) ∧ (d < c → d * P + r2 < c * P + r1) := by
  constructor
  · intro h
    have : (c + 1) * P ≤ d * P := Nat.mul_le_mul_right P h
    nlinarith
  · intro h
    have : (d + 1) * P ≤ c * P := Nat.mul_le_mul_right P h
    nlinarith

theorem drop_cons_getD (l : List Char) (i : Nat) (h : i < l.length) :
    l.drop i = l.getD i '0' :: l.drop (i + 1) := by
  rw [List.getD_eq_getElem _ _ h]
  exact List.drop_eq_getElem_cons h

theorem ltLoop_spec {number num : List Char} (hn : ∀ c ∈ number, isDigit c)
    (hm : ∀ c ∈ num, isDigit c) (hlen : number.length = num.length) (rn : Bool) :
    ∀ k, k ≤ number.length →
      (ltLoop number num rn k = true ↔
        if rn then natVal (num.drop (number.length - k)) < natVal (number.drop (number.length - k))
        else natVal (number.drop (number.length - k)) < natVal (num.drop (number.length - k))) := by
  intro k
  induction k with
  | zero =>
    intro _
    have e1 : number.drop (number.length - 0) = [] := by simp
    have e2 : num.drop (number.length - 0) = [] := by rw [hlen]; simp
    rw [e1, e2]
    cases rn <;> simp [ltLoop]
  | succ k ih =>
    intro hk
    have hi : number.length - (k + 1) < number.length := by omega
    have hi' : number.length - (k + 1) < num.length := by omega
    have hnext : number.length - (k + 1) + 1 = number.length - k := by omega
    rw [ltLoop, drop_cons_getD number _ hi, drop_cons_getD num _ hi', hnext, natVal_cons,
      natVal_cons]
    have hc := isDigit_getD hn (number.length - (k + 1))
    have hd := isDigit_getD hm (number.length - (k + 1))
    have hr1 : natVal (number.drop (number.length - k)) < 10 ^ (number.drop (number.length - k)).length :=
      natVal_lt_pow (fun c h => hn c (List.mem_of_mem_drop h))
    have hr2 : natVal (num.drop (number.length - k)) < 10 ^ (num.drop (number.length - k)).length :=
      natVal_lt_pow (fun c h => hm c (List.mem_of_mem_drop h))
    have hl : (num.drop (number.length - k)).length = (number.drop (number.length - k)).length := by
      simp [hlen]
    rw [hl] at hr2 ⊢
    have hcmp := lead_compare (c := digitNat (number.getD (number.length - (k + 1)) '0'))
      (d := digitNat (num.getD (number.length - (k + 1)) '0')) hr1 hr2
    have ih' := ih (by omega)
    generalize natVal (number.drop (number.length - k)) = r1 at *
    generalize natVal (num.drop (number.length - k)) = r2 at *
    generalize 10 ^ (number.drop (number.length - k)).length = P at *
    by_cases hne : number.getD (number.length - (k + 1)) '0' ≠ num.getD (number.length - (k + 1)) '0'
    · rw [if_pos hne]
      have hne' := (char_ne_iff hc hd).mp hne
      generalize number.getD (number.length - (k + 1)) '0' = c at *
      generalize num.getD (number.length - (k + 1)) '0' = d at *
      have hlt := char_lt_iff hc hd
      have hgt := char_lt_iff hd hc
      cases rn
      · simp only [Bool.false_eq_true, if_false]
        by_cases h : c < d
        · simp only [h, if_true, true_iff]
          exact hcmp.1 (hlt.mp h)
        · simp only [h, if_false, Bool.false_eq_true, false_iff]
          have : digitNat d < digitNat c := by
            have := mt hlt.mpr h; omega
          have := hcmp.2 this
          omega
      · simp only [if_true]
        by_cases h : c > d
        · simp only [h, if_true, true_iff]
          exact hcmp.2 (hgt.mp h)
        · simp only [h, if_false, Bool.false_eq_true, false_iff]
          have : digitNat c < digitNat d := by
            have := mt hgt.mpr h; omega
          have := hcmp.1 this
          omega
    · rw [if_neg hne]
      have he : number.getD (number.length - (k + 1)) '0' = num.getD (number.length - (k + 1)) '0' :=
        not_not.mp hne
      rw [he, ih']
      cases rn <;> simp

/-- On magnitudes in canonical form, the length-then-digits comparison of
`operator<` is the comparison of the decimal values. -/
theorem lt_magnitude {a b : bigint} (ha : wellFormed a) (hb : wellFormed b)
    (hs : a.negative = b.negative) :
    lt a b = true ↔
      if a.negative then natVal b.number < natVal a.number
      else natVal a.number < natVal b.number := by
  obtain ⟨a1, a2, a3, a4⟩ := ha
  obtain ⟨b1, b2, b3, b4⟩ := hb
  unfold lt
  have hc1 : ¬ (a.negative = true ∧ ¬ b.negative = true) := by
    rw [hs]; exact fun h => h.2 h.1
  have hc2 : ¬ (¬ a.negative = true ∧ b.negative = true) := by
    rw [hs]; exact fun h => h.1 h.2
  rw [if_neg hc1, if_neg hc2]
  simp only []
  by_cases hlen : a.number.length ≠ b.number.length
  · rw [if_pos hlen]
    rcases Nat.lt_or_gt_of_ne hlen with h | h
    · have hv := natVal_lt_of_length_lt a2 b2 b3 a1 h
      cases hn : a.negative
      · simp only [Bool.false_eq_true, if_false, h, if_true, true_iff]
        exact hv
      · simp only [if_true, gt_iff_lt, Nat.lt_asymm h, if_false, Bool.false_eq_true, false_iff]
        omega
    · have hv := natVal_lt_of_length_lt b2 a2 a3 b1 h
      cases hn : a.negative
      · simp only [Bool.false_eq_true, if_false, Nat.lt_asymm h, false_iff]
        omega
      · simp only [if_true, gt_iff_lt, h, true_iff]
        exact hv
  · rw [if_neg hlen]
    have hlen' : a.number.length = b.number.length := not_not.mp hlen
    have := ltLoop_spec a2 b2 hlen' a.negative a.number.length (le_refl _)
    simpa using this

/-- The `operator<` agrees with the order of the integers on well-formed values. -/
theorem lt_spec {a b : bigint} (ha : wellFormed a) (hb : wellFormed b) :
    lt a b = true ↔ toInt a < toInt b := by
  cases hna : a.negative <;> cases hnb : b.negative
  · have := lt_magnitude ha hb (by rw [hna, hnb])
    rw [this]
    simp [toInt, hna, hnb]
  · have hp := natVal_pos hb hnb
    simp only [lt, toInt, hna, hnb]
    simp
    omega
  · have hp := natVal_pos ha hna
    simp only [lt, toInt, hna, hnb]
    simp
    omega
  · have := lt_magnitude ha hb (by rw [hna, hnb])
    rw [this]
    simp [toInt, hna, hnb]

/-! ## Addition and subtraction -/

theorem wellFormed_zero : wellFormed zero := by decide

theorem ofString_zero : ofString ['0'] = Except.ok zero := rfl

theorem take_length_natVal (l : List Char) : natVal (l.take l.length) = natVal l := by
  rw [List.take_length]

/-- Subtraction of two non-negative well-formed values returns their difference. -/
theorem sub_nonneg {a b : bigint} (ha : wellFormed a) (hb : wellFormed b)
    (hna : a.negative = false) (hnb : b.negative = false) (fuel : Nat)
    (hf : a.number.length + b.number.length + 1 ≤ fuel) :
    ∃ r, sub fuel a b = some r ∧ wellFormed r ∧ toInt r = toInt a - toInt b := by
  obtain ⟨f, rfl⟩ : ∃ f, fuel = f + 1 := ⟨fuel - 1, by omega⟩
  rw [sub]
  by_cases heq : a.number = b.number ∧ a.negative = b.negative
  · rw [if_pos heq]
    refine ⟨zero, rfl, wellFormed_zero, ?_⟩
    simp only [toInt, hna, hnb, heq.1]
    simp [zero, natVal, digitNat]
  · rw [if_neg heq]
    have hsign : ¬ (a.negative ≠ b.negative) := by rw [hna, hnb]; simp
    rw [if_neg hsign]
    have hlt := lt_spec ha hb
    have hta : toInt a = natVal a.number := by simp [toInt, hna]
    have htb : toInt b = natVal b.number := by simp [toInt, hnb]
    rw [hta, htb] at hlt ⊢
    obtain ⟨a1, a2, a3, a4⟩ := ha
    obtain ⟨b1, b2, b3, b4⟩ := hb
    have hla : 0 < a.number.length := List.length_pos.mpr a1
    have hlb : 0 < b.number.length := List.length_pos.mpr b1
    by_cases h : lt a b = true
    · simp only [h, if_true]
      have hv := hlt.mp h
      obtain ⟨out, ho1, ho2, ho3, ho4⟩ := subLoop_spec b2 a2 f b.number.length a.number.length 0 []
        (le_refl _) (le_refl _) (le_refl _) (by norm_num)
        (by rw [take_length_natVal, take_length_natVal]; omega) (by omega)
      rw [ho1, take_length_natVal, take_length_natVal] at *
      have hne : out ≠ [] := List.ne_nil_of_length_pos (by omega)
      obtain ⟨w, v⟩ := finish_spec out true ho2 hne
      refine ⟨finish out true, by simp, w, ?_⟩
      rw [v]
      simp only [if_true]
      omega
    · simp only [h, if_false, Bool.false_eq_true]
      have hv := mt hlt.mpr h
      obtain ⟨out, ho1, ho2, ho3, ho4⟩ := subLoop_spec a2 b2 f a.number.length b.number.length 0 []
        (le_refl _) (le_refl _) (le_refl _) (by norm_num)
        (by rw [take_length_natVal, take_length_natVal]; omega) (by omega)
      rw [ho1, take_length_natVal, take_length_natVal] at *
      have hne : out ≠ [] := List.ne_nil_of_length_pos (by omega)
      obtain ⟨w, v⟩ := finish_spec out false ho2 hne
      refine ⟨finish out false, by simp, w, ?_⟩
      rw [v]
      simp only [Bool.false_eq_true, if_false]
      omega

/-- Addition of two well-formed values of the same sign returns their sum. -/
theorem add_same_sign {a b : bigint} (ha : wellFormed a) (hb : wellFormed b)
    (hs : a.negative = b.negative) (fuel : Nat)
    (hf : 2 * (a.number.length + b.number.length) + 1 ≤ fuel) :
    ∃ r, add fuel a b = some r ∧ wellFormed r ∧ toInt r = toInt a + toInt b := by
  obtain ⟨f, rfl⟩ : ∃ f, fuel = f + 1 := ⟨fuel - 1, by omega⟩
  rw [add, if_pos hs]
  obtain ⟨a1, a2, a3, a4⟩ := ha
  obtain ⟨b1, b2, b3, b4⟩ := hb
  have hla : 0 < a.number.length := List.length_pos.mpr a1
  obtain ⟨out, ho1, ho2, ho3, ho4⟩ := addLoop_spec a2 b2 f a.number.length b.number.length 0 []
    (le_refl _) (le_refl _) (le_refl _) (by norm_num) (by simp; omega)
  rw [ho1, take_length_natVal, take_length_natVal] at *
  have hne : out ≠ [] := List.ne_nil_of_length_pos (by omega)
  obtain ⟨w, v⟩ := finish_spec out a.negative ho2 hne
  refine ⟨finish out a.negative, by simp, w, ?_⟩
  rw [v]
  simp only [toInt, ← hs]
  split <;> omega

/-- Addition returns the sum: with enough fuel `a + b` is a well-formed value
whose integer meaning is `int(a) + int(b)`. -/
theorem add_spec {a b : bigint} (ha : wellFormed a) (hb : wellFormed b) (fuel : Nat)
    (hf : 2 * (a.number.length + b.number.length) + 2 ≤ fuel) :
    ∃ r, add fuel a b = some r ∧ wellFormed r ∧ toInt r = toInt a + toInt b := by
  by_cases hs : a.negative = b.negative
  · exact add_same_sign ha hb hs fuel (by omega)
  · obtain ⟨f, rfl⟩ : ∃ f, fuel = f + 1 := ⟨fuel - 1, by omega⟩
    rw [add, if_neg hs]
    cases hna : a.negative
    · have hnb : b.negative = true := by
        cases h : b.negative
        · rw [hna, h] at hs; exact absurd rfl hs
        · rfl
      obtain ⟨w, v, n, s⟩ := neg_spec hb
      have hb0 : b.number ≠ ['0'] := fun h => by
        have := hb.2.2.2 h; rw [hnb] at this; exact Bool.noConfusion this
      have hnn : (neg b).negative = false := by rw [s hb0, hnb]; rfl
      obtain ⟨r, hr, wr, vr⟩ := sub_nonneg ha w hna hnn f (by rw [n]; omega)
      refine ⟨r, by simpa using hr, wr, ?_⟩
      rw [vr, v]; ring
    · have hnb : b.negative = false := by
        cases h : b.negative
        · rfl
        · rw [hna, h] at hs; exact absurd rfl hs
      obtain ⟨w, v, n, s⟩ := neg_spec ha
      have ha0 : a.number ≠ ['0'] := fun h => by
        have := ha.2.2.2 h; rw [hna] at this; exact Bool.noConfusion this
      have hnn : (neg a).negative = false := by rw [s ha0, hna]; rfl
      obtain ⟨r, hr, wr, vr⟩ := sub_nonneg hb w hnb hnn f (by rw [n]; omega)
      refine ⟨r, by simpa using hr, wr, ?_⟩
      rw [vr, v]; ring

/-! ## Multiplication -/

theorem natVal_take_succ (l : List Char) (j : Nat) (hj : j < l.length) :
    natVal (l.take (j + 1)) = 10 * natVal (l.take j) + digitNat (l.getD j '0') := by
  have := natVal_take_step l (j + 1) hj
  simpa using this

/-- Overwriting the cell `k` of a buffer changes its value by the difference of
the digits, weighted by the position. -/
theorem natVal_set : ∀ (l : List Char) (k e : Nat) (c : Char), k + 1 + e = l.length →
    (natVal (l.set k c) : Int)
      = natVal l + ((digitNat c : Int) - digitNat (l.getD k '0')) * 10 ^ e
  | [], k, e, c, h => by simp at h
  | x :: xs, 0, e, c, h => by
    have he : e = xs.length := by simp at h; omega
    subst he
    simp only [List.set_cons_zero, natVal_cons, List.getD_cons_zero]
    push_cast
    ring
  | x :: xs, k + 1, e, c, h => by
    have h' : k + 1 + e = xs.length := by simp at h; omega
    simp only [List.set_cons_succ, natVal_cons, List.getD_cons_succ, List.length_set]
    push_cast
    rw [natVal_set xs k e c h']
    ring

theorem isDigit_set {l : List Char} (hl : ∀ c ∈ l, isDigit c) (k : Nat) {x : Char}
    (hx : isDigit x) : ∀ c ∈ l.set k x, isDigit c := by
  intro c hc
  rcases List.mem_or_eq_of_mem_set hc with h | h
  · exact hl c h
  · rw [h]; exact hx

theorem getD_set_ne (l : List Char) {k p : Nat} (x : Char) (h : p ≠ k) :
    (l.set p x).getD k '0' = l.getD k '0' := by
  simp [List.getD_eq_getElem?_getD, List.getElem?_set_ne h]

/-- The arithmetic of one cell of a partial row. -/
theorem mul_cell {a b r : Nat} {next : Int} (ha : a ≤ 9) (hb : b ≤ 9) (hr : r ≤ 9)
    (h0 : 0 ≤ next) (h9 : next ≤ 9) :
    Int.tdiv ((a : Int) * b + r + next) 10 = ((a : Int) * b + r + next) / 10 ∧
    Int.tmod ((a : Int) * b + r + next) 10 = ((a : Int) * b + r + next) % 10 ∧
    0 ≤ ((a : Int) * b + r + next) / 10 ∧ ((a : Int) * b + r + next) / 10 ≤ 9 ∧
    0 ≤ ((a : Int) * b + r + next) % 10 ∧ ((a : Int) * b + r + next) % 10 ≤ 9 ∧
    (a : Int) * b + r + next ≤ 99 := by
  have hab : (a : Int) * b ≤ 81 := by
    have : a * b ≤ 9 * 9 := Nat.mul_le_mul ha hb
    exact_mod_cast this
  have hab0 : (0 : Int) ≤ (a : Int) * b := by positivity
  have hp0 : (0 : Int) ≤ (a : Int) * b + r + next := by omega
  refine ⟨Int.tdiv_eq_ediv hp0 (by norm_num), Int.tmod_eq_emod hp0 (by norm_num),
    ?_, ?_, ?_, ?_, ?_⟩ <;> omega

theorem mul_value_step {R R1 R' T T1 a b r : Nat} {next next' q dc : Int} {e j : Nat}
    (hset : (R1 : Int) = R + (dc - r) * 10 ^ e)
    (hih : (R' : Int) + next' * 10 ^ (j + (e + 1))
      = R1 + a * T * 10 ^ (e + 1) + q * 10 ^ (e + 1))
    (hT : T1 = 10 * T + b) (hmul : 10 * q + dc = (a : Int) * b + r + next) :
    (R' : Int) + next' * 10 ^ (j + 1 + e) = R + a * T1 * 10 ^ e + next * 10 ^ e := by
  have e1 : j + 1 + e = j + (e + 1) := by ring
  have hn : next = 10 * q + dc - (a : Int) * b - r := by linarith
  rw [e1, hih, hset, hT, hn]
  push_cast
  ring

/-- The inner loop of the multiplication adds the partial row `a * num` at the
row's offset, keeps every cell a digit and leaves a carry of at most `9`. -/
theorem mulInner_spec {number num : List Char} (hm : ∀ c ∈ num, isDigit c) (i a : Nat)
    (ha : a ≤ 9) (hda : digitVal (number.getD (i - 1) '0') = a) :
    ∀ (j : Nat) (next : Int) (res : List Char) (e : Nat), j ≤ num.length →
      res.length = i + j + e → (∀ c ∈ res, isDigit c) → 0 ≤ next → next ≤ 9 →
      ∃ (res' : List Char) (next' : Int), mulInner number num i j next res = (res', next') ∧
        res'.length = res.length ∧ (∀ c ∈ res', isDigit c) ∧ 0 ≤ next' ∧ next' ≤ 9 ∧
        (∀ k, k < i → res'.getD k '0' = res.getD k '0') ∧
        (natVal res' : Int) + next' * 10 ^ (j + e)
          = natVal res + a * natVal (num.take j) * 10 ^ e + next * 10 ^ e := by
  intro j
  induction j with
  | zero =>
    intro next res e _ _ hres h0 h9
    refine ⟨res, next, rfl, rfl, hres, h0, h9, fun _ _ => rfl, ?_⟩
    simp [natVal]
  | succ j ih =>
    intro next res e hj hlen hres h0 h9
    have hp : i + (j + 1) - 1 = i + j := by omega
    rw [mulInner, hp]
    have hb := isDigit_getD hm j
    have hr := isDigit_getD hres (i + j)
    rw [hda, digitVal_eq hb, digitVal_eq hr]
    obtain ⟨hq, hmod, q0, q9, r0, r9, _⟩ :=
      mul_cell ha (digitNat_le hb) (digitNat_le hr) h0 h9
    rw [hq, hmod]
    obtain ⟨hc1, hc2⟩ := charOfInt_digit r0 r9
    obtain ⟨res', next', e1, e2, e3, e4, e5, e6, e7⟩ := ih _
      (res.set (i + j) (charOfInt
        (((a : Int) * digitNat (num.getD j '0') + digitNat (res.getD (i + j) '0') + next) % 10 + 48)))
      (e + 1) (by omega) (by rw [List.length_set]; omega) (isDigit_set hres _ hc1) q0 q9
    refine ⟨res', next', e1, by rw [e2, List.length_set], e3, e4, e5, ?_, ?_⟩
    · intro k hk
      rw [e6 k hk, getD_set_ne _ _ (by omega)]
    · have hset := natVal_set res (i + j) e (charOfInt
        (((a : Int) * digitNat (num.getD j '0') + digitNat (res.getD (i + j) '0') + next) % 10 + 48))
        (by omega)
      rw [hc2] at hset
      exact mul_value_step hset e7 (natVal_take_succ num j (by omega)) (by omega)

theorem mul_row_value {R R1 R2 R' A A1 B a : Nat} {next1 : Int} {m e : Nat}
    (hrow : (R1 : Int) + next1 * 10 ^ (m + e) = R + a * B * 10 ^ e + 0 * 10 ^ e)
    (hset : (R2 : Int) = R1 + (next1 - (0 : Nat)) * 10 ^ (m + e))
    (hih : (R' : Int) = R2 + A * B * 10 ^ (e + 1)) (hA : A1 = 10 * A + a) :
    (R' : Int) = R + A1 * B * 10 ^ e := by
  have h1 : (R2 : Int) = R + a * B * 10 ^ e := by
    rw [hset]; push_cast; linarith
  rw [hih, h1, hA]
  push_cast
  ring

/-- The outer loop of the multiplication adds to the buffer the product of the
first `i` digits of `number` (at their offset) and `num`, and keeps every cell
a digit. -/
theorem mulOuter_spec {number num : List Char} (hn : ∀ c ∈ number, isDigit c)
    (hm : ∀ c ∈ num, isDigit c) :
    ∀ (i : Nat) (res : List Char) (e : Nat), i + e = number.length →
      res.length = number.length + num.length → (∀ c ∈ res, isDigit c) →
      (∀ k, k < i → res.getD k '0' = '0') →
      (mulOuter number num i res).length = res.length ∧
        (∀ c ∈ mulOuter number num i res, isDigit c) ∧
        (natVal (mulOuter number num i res) : Int)
          = natVal res + natVal (number.take i) * natVal num * 10 ^ e := by
  intro i
  induction i with
  | zero =>
    intro res e _ _ hres _
    refine ⟨rfl, hres, ?_⟩
    simp [mulOuter, natVal]
  | succ i ih =>
    intro res e he hlen hres hz
    rw [mulOuter]
    have ha := isDigit_getD hn i
    obtain ⟨res1, next1, r1, r2, r3, r4, r5, r6, r7⟩ :=
      @mulInner_spec number num hm (i + 1) (digitNat (number.getD i '0')) (digitNat_le ha)
        (by rw [Nat.add_sub_cancel]; exact digitVal_eq ha)
        num.length 0 res e (le_refl _) (by omega) hres (le_refl _) (by norm_num)
    rw [r1]
    simp only []
    have hcell : res1.getD i '0' = '0' := by rw [r6 i (by omega), hz i (by omega)]
    rw [hcell]
    have hch : charOfInt ((('0' : Char).toNat : Int) + next1) = charOfInt (next1 + 48) := by
      congr 1
      rw [add_comm]
      rfl
    rw [hch]
    obtain ⟨hc1, hc2⟩ := charOfInt_digit r4 r5
    obtain ⟨i1, i2, i3⟩ := ih (res1.set i (charOfInt (next1 + 48))) (e + 1) (by omega)
      (by rw [List.length_set]; omega) (isDigit_set r3 _ hc1) (by
        intro k hk
        rw [getD_set_ne _ _ (by omega), r6 k (by omega), hz k (by omega)])
    refine ⟨by rw [i1, List.length_set, r2], i2, ?_⟩
    have hset := natVal_set res1 i (num.length + e) (charOfInt (next1 + 48)) (by omega)
    rw [hc2, hcell] at hset
    rw [take_length_natVal] at r7
    exact mul_row_value r7 hset i3 (natVal_take_succ number i (by omega))

theorem natVal_replicate_zero (k : Nat) : natVal (List.replicate k '0') = 0 := by
  induction k with
  | zero => rfl
  | succ k ih => rw [List.replicate_succ, natVal_cons, ih, digitNat_zero]; simp

theorem getD_replicate_zero (k i : Nat) : (List.replicate k '0').getD i '0' = '0' := by
  by_cases h : i < k
  · rw [List.getD_eq_getElem _ _ (by simpa using h)]
    simp
  · rw [List.getD_eq_default _ _ (by simpa using h)]

theorem toInt_eq_zero_of_zero {a : bigint} (h : a.number = ['0']) : toInt a = 0 := by
  unfold toInt
  rw [h]
  split <;> rfl

/-- Multiplication returns the product as a well-formed value, negative exactly
when the signs differ and no operand is zero. -/
theorem mul_spec {a b : bigint} (ha : wellFormed a) (hb : wellFormed b) :
    wellFormed (mul a b) ∧ toInt (mul a b) = toInt a * toInt b ∧
      ((mul a b).negative = true ↔
        (a.negative ≠ b.negative ∧ a.number ≠ ['0'] ∧ b.number ≠ ['0'])) := by
  unfold mul
  by_cases hz : a.number = ['0'] ∨ b.number = ['0']
  · rw [if_pos hz]
    refine ⟨wellFormed_zero, ?_, ?_⟩
    · rcases hz with h | h
      · rw [toInt_eq_zero_of_zero h, zero_mul]; rfl
      · rw [toInt_eq_zero_of_zero h, mul_zero]; rfl
    · constructor
      · intro h; exact absurd h (by decide)
      · intro h
        rcases hz with h' | h'
        · exact absurd h' h.2.1
        · exact absurd h' h.2.2
  · rw [if_neg hz]
    simp only []
    have ha0 : a.number ≠ ['0'] := fun h => hz (Or.inl h)
    have hb0 : b.number ≠ ['0'] := fun h => hz (Or.inr h)
    obtain ⟨a1, a2, a3, a4⟩ := ha
    obtain ⟨b1, b2, b3, b4⟩ := hb
    have hA : natVal a.number ≠ 0 := (natVal_eq_zero_iff a2 a3 a1).not.mpr ha0
    have hB : natVal b.number ≠ 0 := (natVal_eq_zero_iff b2 b3 b1).not.mpr hb0
    obtain ⟨m1, m2, m3⟩ := mulOuter_spec a2 b2 a.number.length
      (List.replicate (a.number.length + b.number.length) '0') 0 (by omega) (by simp)
      (by intro c hc; rw [List.eq_of_mem_replicate hc]; decide)
      (fun k _ => getD_replicate_zero _ k)
    rw [natVal_replicate_zero, take_length_natVal] at m3
    have hla : 0 < a.number.length := List.length_pos.mpr a1
    have hval : natVal (mulOuter a.number b.number a.number.length
        (List.replicate (a.number.length + b.number.length) '0'))
        = natVal a.number * natVal b.number := by
      have : ((natVal (mulOuter a.number b.number a.number.length
        (List.replicate (a.number.length + b.number.length) '0')) : Nat) : Int)
        = ((natVal a.number * natVal b.number : Nat) : Int) := by
        rw [m3]; push_cast; ring
      exact_mod_cast this
    generalize mulOuter a.number b.number a.number.length
        (List.replicate (a.number.length + b.number.length) '0') = r at *
    have hrne : r ≠ [] := List.ne_nil_of_length_pos (by rw [m1]; simp; omega)
    have hne0 : removeZeros r ≠ ['0'] := by
      intro h
      have : natVal (removeZeros r) = 0 := by rw [h]; rfl
      rw [natVal_removeZeros, hval] at this
      rcases Nat.mul_eq_zero.mp this with h' | h'
      · exact hA h'
      · exact hB h'
    refine ⟨⟨removeZeros_ne_nil _ hrne, fun c hc => m2 c (removeZeros_mem _ c hc),
      removeZeros_head _, fun h => absurd h hne0⟩, ?_, ?_⟩
    · simp only [toInt]
      rw [natVal_removeZeros, hval]
      cases a.negative <;> cases b.negative <;> simp
    · constructor
      · intro h
        refine ⟨?_, ha0, hb0⟩
        by_contra hc
        simp [hc] at h
      · intro h
        simp [h.1]

/-! ## Uniqueness of the canonical form -/

theorem natVal_inj_of_length_eq (s : List Char) : ∀ (t : List Char), (∀ c ∈ s, isDigit c) →
    (∀ c ∈ t, isDigit c) → s.length = t.length → natVal s = natVal t → s = t := by
  induction s with
  | nil =>
    intro t _ _ hlen _
    exact (List.length_eq_zero.mp hlen.symm).symm
  | cons c s ih =>
    intro t hs ht hlen hv
    cases t with
    | nil => exact absurd hlen (by simp)
    | cons d t =>
      have hlen' : s.length = t.length := Nat.succ.inj hlen
      rw [natVal_cons, natVal_cons, hlen'] at hv
      have hs' : ∀ x ∈ s, isDigit x := fun x hx => hs x (List.mem_cons_of_mem _ hx)
      have ht' : ∀ x ∈ t, isDigit x := fun x hx => ht x (List.mem_cons_of_mem _ hx)
      have h1 := natVal_lt_pow hs'
      have h2 := natVal_lt_pow ht'
      rw [hlen'] at h1
      have hcmp := lead_compare (c := digitNat c) (d := digitNat d) h1 h2
      have hcd : digitNat c = digitNat d := by
        rcases Nat.lt_trichotomy (digitNat c) (digitNat d) with h | h | h
        · have := hcmp.1 h; omega
        · exact h
        · have := hcmp.2 h; omega
      have hc : c = d := by
        by_contra hne
        exact (char_ne_iff (hs c (List.mem_cons_self _ _)) (ht d (List.mem_cons_self _ _))).mp
          hne hcd
      rw [hcd] at hv
      have hr : natVal s = natVal t := by omega
      rw [hc, ih t hs' ht' hlen' hr]

/-- Two canonical magnitudes of the same value are the same string. -/
theorem natVal_inj {s t : List Char} (hs : ∀ c ∈ s, isDigit c) (ht : ∀ c ∈ t, isDigit c)
    (hsz : s.head? = some '0' → s = ['0']) (htz : t.head? = some '0' → t = ['0'])
    (hs0 : s ≠ []) (ht0 : t ≠ []) (hv : natVal s = natVal t) : s = t := by
  apply natVal_inj_of_length_eq s t hs ht _ hv
  rcases Nat.lt_trichotomy s.length t.length with h | h | h
  · have := natVal_lt_of_length_lt hs ht htz hs0 h; omega
  · exact h
  · have := natVal_lt_of_length_lt ht hs hsz ht0 h; omega

/-- Two well-formed values of the same integer meaning are the same value. -/
theorem toInt_inj {a b : bigint} (ha : wellFormed a) (hb : wellFormed b)
    (h : toInt a = toInt b) : a = b := by
  have hsign : a.negative = b.negative := by
    cases hna : a.negative <;> cases hnb : b.negative
    · rfl
    · have := natVal_pos hb hnb
      simp only [toInt, hna, hnb] at h
      simp at h
      omega
    · have := natVal_pos ha hna
      simp only [toInt, hna, hnb] at h
      simp at h
      omega
    · rfl
  have hv : natVal a.number = natVal b.number := by
    simp only [toInt, hsign] at h
    split at h <;> omega
  have hnum := natVal_inj ha.2.1 hb.2.1 ha.2.2.1 hb.2.2.1 ha.1 hb.1 hv
  cases a; cases b
  simp only at hnum hsign
  rw [hnum, hsign]

/-! ## The subtraction of two negative values -/

/-- The subtraction of two negative well-formed values of different magnitudes
never returns: the operand taken as `larger` has the smaller magnitude, so the
borrow loop never reaches its exit. -/
theorem sub_negative_diverges {a b : bigint} (ha : wellFormed a) (hb : wellFormed b)
    (hna : a.negative = true) (hnb : b.negative = true) (hne : a.number ≠ b.number)
    (fuel : Nat) : sub fuel a b = none := by
  cases fuel with
  | zero => rfl
  | succ f =>
    rw [sub]
    have h1 : ¬ (a.number = b.number ∧ a.negative = b.negative) := fun h => hne h.1
    have h2 : ¬ (a.negative ≠ b.negative) := by rw [hna, hnb]; simp
    rw [if_neg h1, if_neg h2]
    have hlt := lt_magnitude ha hb (by rw [hna, hnb])
    rw [hna] at hlt
    simp only [if_true] at hlt
    have hvne : natVal a.number ≠ natVal b.number := fun h =>
      hne (natVal_inj ha.2.1 hb.2.1 ha.2.2.1 hb.2.2.1 ha.1 hb.1 h)
    by_cases h : lt a b = true
    · simp only [h, if_true]
      have hv := hlt.mp h
      rw [subLoop_diverges hb.2.1 ha.2.1 f _ _ 0 [] (le_refl _) (le_refl _) (le_refl _)
        (by norm_num) (by rw [take_length_natVal, take_length_natVal]; omega)]
      rfl
    · simp only [h, if_false, Bool.false_eq_true]
      have hv := mt hlt.mpr h
      rw [subLoop_diverges ha.2.1 hb.2.1 f _ _ 0 [] (le_refl _) (le_refl _) (le_refl _)
        (by norm_num) (by rw [take_length_natVal, take_length_natVal]; omega)]
      rfl

/-! ## The string constructor -/

theorem char_lt_toNat (c d : Char) : c < d ↔ c.toNat < d.toNat := by
  rw [Char.lt_def, UInt32.lt_def]
  rfl

theorem not_isDigit_iff (c : Char) : (c < '0' ∨ c > '9') ↔ ¬ isDigit c := by
  rw [isDigit_iff, gt_iff_lt, char_lt_toNat, char_lt_toNat]
  show (c.toNat < 48 ∨ 57 < c.toNat) ↔ _
  omega

theorem isValidNumberLoop_iff : ∀ (l : List Char),
    isValidNumberLoop l = true ↔ ∀ c ∈ l, isDigit c
  | [] => by simp [isValidNumberLoop]
  | c :: rest => by
    rw [isValidNumberLoop]
    by_cases h : c < '0' ∨ c > '9'
    · rw [if_pos h]
      have := (not_isDigit_iff c).mp h
      simp [this]
    · rw [if_neg h, isValidNumberLoop_iff rest]
      have : isDigit c := not_not.mp (mt (not_isDigit_iff c).mpr h)
      simp [this]

theorem drop_sign (s : List Char) :
    s.drop (if (s.head? == some '-') = true then 1 else 0) = afterSign s := by
  unfold afterSign
  cases s with
  | nil => simp
  | cons c rest =>
    by_cases h : c = '-'
    · simp [h]
    · simp [h]

/-- The string constructor as a case distinction on its input. -/
theorem ofString_eq (s : List Char) :
    ofString s =
      if s = [] then Except.error "Empty string cannot be converted"
      else if ∀ c ∈ afterSign s, isDigit c then
        Except.ok ⟨removeZeros (afterSign s), s.head? == some '-'⟩
      else Except.error "Invalid characters" := by
  unfold ofString isValidNumber
  by_cases h : s = []
  · simp [h]
  · have he : s.isEmpty = false := by
      cases s with
      | nil => exact absurd rfl h
      | cons _ _ => rfl
    rw [if_neg h, he]
    simp only [Bool.false_eq_true, if_false]
    rw [drop_sign]
    by_cases hv : ∀ c ∈ afterSign s, isDigit c
    · rw [if_pos hv, (isValidNumberLoop_iff _).mpr hv]
      rfl
    · rw [if_neg hv]
      have : isValidNumberLoop (afterSign s) = false := by
        cases hl : isValidNumberLoop (afterSign s)
        · rfl
        · exact absurd ((isValidNumberLoop_iff _).mp hl) hv
      rw [this]
      rfl

/-! ## The scenarios of the test suite -/

/-- The test `"12345" + "67890" == "80235"`. -/
theorem scenario_addition :
    add 100 ⟨"12345".toList, false⟩ ⟨"67890".toList, false⟩ = some ⟨"80235".toList, false⟩ := by
  decide

/-- The test `"12345" - "67890" == "-55545"`. -/
theorem scenario_subtraction :
    sub 100 ⟨"12345".toList, false⟩ ⟨"67890".toList, false⟩ = some ⟨"55545".toList, true⟩ := by
  decide

/-- The test `"12345" * "67890" == "838102050"`. -/
theorem scenario_multiplication :
    mul ⟨"12345".toList, false⟩ ⟨"67890".toList, false⟩ = ⟨"838102050".toList, false⟩ := by
  decide

/-- The test `"9999" + "1" == "10000"`. -/
theorem scenario_carry_chain :
    add 100 ⟨"9999".toList, false⟩ ⟨"1".toList, false⟩ = some ⟨"10000".toList, false⟩ := by
  decide

/-- The tests of the constructors: `bigint(12345)`, `bigint(-67890)` and
`bigint("0000123")`. -/
theorem scenario_constructors :
    ofString "12345".toList = Except.ok (ofInt64 12345) ∧
      ofString "-67890".toList = Except.ok (ofInt64 (-67890)) ∧
      ofString "0000123".toList = ofString "123".toList ∧
      ofString "0".toList = Except.ok default :=
  ⟨rfl, rfl, rfl, rfl⟩

/-! ## The claims of the specification -/

/-- C1: for well-formed `a` and `b`, `a + b` terminates (every fuel from
`2 * (len a + len b) + 2` on gives the same result) and returns the well-formed
value whose integer meaning is `int(a) + int(b)`. -/
theorem add_correct (a b : bigint) (ha : wellFormed a) (hb : wellFormed b) :
    ∃ r, wellFormed r ∧ toInt r = toInt a + toInt b ∧
      ∀ fuel, 2 * (a.number.length + b.number.length) + 2 ≤ fuel → add fuel a b = some r := by
  obtain ⟨r, hr, wr, vr⟩ := add_spec ha hb _ (le_refl _)
  refine ⟨r, wr, vr, fun fuel hf => ?_⟩
  obtain ⟨r', hr', wr', vr'⟩ := add_spec ha hb fuel hf
  rw [hr', toInt_inj wr' wr (by rw [vr', vr])]

/-- The carry chain `9999 + 1`, an instance of C1. -/
theorem add_correct_witness :
    wellFormed ⟨['9', '9', '9', '9'], false⟩ ∧ wellFormed ⟨['1'], false⟩ ∧
      ∃ r, wellFormed r ∧
        toInt r = toInt ⟨['9', '9', '9', '9'], false⟩ + toInt ⟨['1'], false⟩ ∧
        ∀ fuel, 2 * (4 + 1) + 2 ≤ fuel →
          add fuel ⟨['9', '9', '9', '9'], false⟩ ⟨['1'], false⟩ = some r :=
  ⟨by decide, by decide, add_correct _ _ (by decide) (by decide)⟩

/-- C2: the subtraction `(-5) - (-3)` of two well-formed values never returns,
for any amount of fuel, although the claimed result `-2` exists. -/
theorem sub_negative_never_returns :
    wellFormed ⟨['5'], true⟩ ∧ wellFormed ⟨['3'], true⟩ ∧
      toInt ⟨['5'], true⟩ - toInt ⟨['3'], true⟩ = -2 ∧
      ∀ fuel, sub fuel ⟨['5'], true⟩ ⟨['3'], true⟩ = none :=
  ⟨by decide, by decide, by decide,
    sub_negative_diverges (by decide) (by decide) rfl rfl (by decide)⟩

/-- C3: for well-formed `a` and `b`, `a * b` is the well-formed value whose
integer meaning is `int(a) * int(b)`, and its sign flag is set exactly when the
operand signs differ and neither operand is zero. -/
theorem mul_correct (a b : bigint) (ha : wellFormed a) (hb : wellFormed b) :
    wellFormed (mul a b) ∧ toInt (mul a b) = toInt a * toInt b ∧
      ((mul a b).negative = true ↔
        (a.negative ≠ b.negative ∧ a.number ≠ ['0'] ∧ b.number ≠ ['0'])) :=
  mul_spec ha hb

/-- The product `12345 * (-67890)`, an instance of C3. -/
theorem mul_correct_witness :
    wellFormed ⟨['1', '2', '3', '4', '5'], false⟩ ∧
      wellFormed ⟨['6', '7', '8', '9', '0'], true⟩ ∧
      wellFormed (mul ⟨['1', '2', '3', '4', '5'], false⟩ ⟨['6', '7', '8', '9', '0'], true⟩) ∧
      toInt (mul ⟨['1', '2', '3', '4', '5'], false⟩ ⟨['6', '7', '8', '9', '0'], true⟩)
        = toInt ⟨['1', '2', '3', '4', '5'], false⟩ * toInt ⟨['6', '7', '8', '9', '0'], true⟩ ∧
      ((mul ⟨['1', '2', '3', '4', '5'], false⟩ ⟨['6', '7', '8', '9', '0'], true⟩).negative = true ↔
        ((false : Bool) ≠ true ∧ ['1', '2', '3', '4', '5'] ≠ ['0'] ∧
          ['6', '7', '8', '9', '0'] ≠ ['0'])) :=
  ⟨by decide, by decide, mul_correct _ _ (by decide) (by decide)⟩

/-- C4: for well-formed `a` and `b`, `a < b` is true exactly when
`int(a) < int(b)`; a negative value is below a non-negative one, and two
negative values compare by magnitude with the result inverted. -/
theorem lt_correct (a b : bigint) (ha : wellFormed a) (hb : wellFormed b) :
    (lt a b = true ↔ toInt a < toInt b) ∧
      (a.negative = true → b.negative = false → lt a b = true) ∧
      (a.negative = false → b.negative = true → lt a b = false) ∧
      (a.negative = false → b.negative = false →
        (lt a b = true ↔ natVal a.number < natVal b.number)) ∧
      (a.negative = true → b.negative = true →
        (lt a b = true ↔ natVal b.number < natVal a.number)) := by
  refine ⟨lt_spec ha hb, ?_, ?_, ?_, ?_⟩
  · intro h1 h2; simp [lt, h1, h2]
  · intro h1 h2; simp [lt, h1, h2]
  · intro h1 h2
    have := lt_magnitude ha hb (by rw [h1, h2])
    simpa [h1] using this
  · intro h1 h2
    have := lt_magnitude ha hb (by rw [h1, h2])
    simpa [h1] using this

/-- The comparison `-67890 < -12345`, an instance of C4. -/
theorem lt_correct_witness :
    wellFormed ⟨['6', '7', '8', '9', '0'], true⟩ ∧
      wellFormed ⟨['1', '2', '3', '4', '5'], true⟩ ∧
      (lt ⟨['6', '7', '8', '9', '0'], true⟩ ⟨['1', '2', '3', '4', '5'], true⟩ = true ↔
        toInt ⟨['6', '7', '8', '9', '0'], true⟩ < toInt ⟨['1', '2', '3', '4', '5'], true⟩) :=
  ⟨by decide, by decide, (lt_correct _ _ (by decide) (by decide)).1⟩

/-- C5: the string constructor accepts `"-0"` and returns the magnitude `"0"`
with the sign flag set, a value that is not well-formed and differs from the
one built from the native integer `0`; it also accepts `"-"` and returns an
empty magnitude. -/
theorem ofString_negative_zero :
    ofString ['-', '0'] = Except.ok ⟨['0'], true⟩ ∧ ¬ wellFormed ⟨['0'], true⟩ ∧
      ofInt64 0 = ⟨['0'], false⟩ ∧ beq ⟨['0'], true⟩ (ofInt64 0) = false ∧
      ofString ['-', '0', '0', '0'] = Except.ok ⟨['0'], true⟩ ∧
      ofString ['0', '0', '0', '0'] = Except.ok ⟨['0'], false⟩ ∧
      ofString ['-'] = Except.ok ⟨[], true⟩ ∧ ¬ wellFormed ⟨[], true⟩ :=
  ⟨rfl, by decide, by decide, by decide, rfl, rfl, rfl, by decide⟩

/-- C6: construction from a string fails exactly when the string is empty or
some character after one optional leading `'-'` is not a decimal digit; so
`""`, `"abc123"`, `"12a3"` and `"--5"` are rejected. -/
theorem ofString_error_iff :
    (∀ s : List Char, (∃ msg, ofString s = Except.error msg) ↔
      (s = [] ∨ ∃ c ∈ afterSign s, ¬ isDigit c)) ∧
    (∀ s : List Char, (s = [] ∨ ∃ c ∈ afterSign s, ¬ isDigit c) ∨
      ∃ v, ofString s = Except.ok v) ∧
    (∃ msg, ofString [] = Except.error msg) ∧
    (∃ msg, ofString ['a', 'b', 'c', '1', '2', '3'] = Except.error msg) ∧
    (∃ msg, ofString ['1', '2', 'a', '3'] = Except.error msg) ∧
    (∃ msg, ofString ['-', '-', '5'] = Except.error msg) := by
  refine ⟨fun s => ?_, fun s => ?_, ⟨_, rfl⟩, ⟨_, rfl⟩, ⟨_, rfl⟩, ⟨_, rfl⟩⟩
  · rw [ofString_eq]
    by_cases h : s = []
    · simp [h]
    · rw [if_neg h]
      by_cases hv : ∀ c ∈ afterSign s, isDigit c
      · rw [if_pos hv]
        constructor
        · rintro ⟨msg, hmsg⟩
          exact Except.noConfusion hmsg
        · rintro (hs | ⟨c, hc, hn⟩)
          · exact absurd hs h
          · exact absurd (hv c hc) hn
      · rw [if_neg hv]
        constructor
        · intro _
          push_neg at hv
          exact Or.inr hv
        · intro _
          exact ⟨_, rfl⟩
  · by_cases hs : s = [] ∨ ∃ c ∈ afterSign s, ¬ isDigit c
    · exact Or.inl hs
    · right
      rw [ofString_eq]
      push_neg at hs
      rw [if_neg hs.1, if_pos hs.2]
      exact ⟨_, rfl⟩

/-- C7: rendering the value constructed from `"-0"` (and from `"-000"`) gives
`"-0"`, while the canonical form of these strings is `"0"`. -/
theorem render_negative_zero :
    (ofString ['-', '0']).map render = Except.ok ['-', '0'] ∧
      canonical_form ['-', '0'] = ['0'] ∧
      (ofString ['-', '0', '0', '0']).map render = Except.ok ['-', '0'] ∧
      canonical_form ['-', '0', '0', '0'] = ['0'] :=
  ⟨rfl, by decide, rfl, by decide⟩

/-- C8: construction from the minimum 64-bit integer `-2^63` stores the
magnitude `"-9223372036854775808"`, which is not a digit string, and so
differs from the value constructed from the decimal string of `-2^63`. -/
theorem ofInt64_min :
    ofInt64 (-2 ^ 63) = ⟨"-9223372036854775808".toList, true⟩ ∧
      ¬ wellFormed (ofInt64 (-2 ^ 63)) ∧
      ofString "-9223372036854775808".toList
        = Except.ok ⟨"9223372036854775808".toList, true⟩ := by
  refine ⟨by decide, by decide, rfl⟩

/-- C9: the subtraction `(-12) - (-7)` of two well-formed values returns no
value, whatever the fuel: the borrow loop never reaches its exit condition. -/
theorem sub_not_total :
    wellFormed ⟨['1', '2'], true⟩ ∧ wellFormed ⟨['7'], true⟩ ∧
      ¬ ∃ fuel r, sub fuel ⟨['1', '2'], true⟩ ⟨['7'], true⟩ = some r := by
  refine ⟨by decide, by decide, ?_⟩
  rintro ⟨fuel, r, h⟩
  rw [sub_negative_diverges (by decide) (by decide) rfl rfl (by decide)] at h
  exact Option.noConfusion h

/-- C10: for `a = -3` and `b = -5` the addition `a + (-b)` returns `2` while
the subtraction `a - b` returns no value. -/
theorem sub_ne_add_neg :
    wellFormed ⟨['3'], true⟩ ∧ wellFormed ⟨['5'], true⟩ ∧
      add 4 ⟨['3'], true⟩ (neg ⟨['5'], true⟩) = some ⟨['2'], false⟩ ∧
      ∀ fuel, sub fuel ⟨['3'], true⟩ ⟨['5'], true⟩ = none :=
  ⟨by decide, by decide, by decide,
    sub_negative_diverges (by decide) (by decide) rfl rfl (by decide)⟩

/-! ## Equality, and results that do not depend on the fuel -/

theorem beq_iff (a b : bigint) : beq a b = true ↔ a = b := by
  unfold beq
  constructor
  · intro h
    by_cases hc : a.number = b.number ∧ a.negative = b.negative
    · cases a; cases b
      simp only at hc
      rw [hc.1, hc.2]
    · rw [if_neg hc] at h
      exact absurd h (by decide)
  · intro h
    rw [h]
    simp

/-- With enough fuel the sum does not depend on the fuel. -/
theorem add_result {a b : bigint} (ha : wellFormed a) (hb : wellFormed b) :
    ∃ r, wellFormed r ∧ toInt r = toInt a + toInt b ∧
      ∀ fuel, 2 * (a.number.length + b.number.length) + 2 ≤ fuel → add fuel a b = some r := by
  obtain ⟨r, _, wr, vr⟩ := add_spec ha hb _ (le_refl _)
  refine ⟨r, wr, vr, fun fuel hf => ?_⟩
  obtain ⟨r', hr', wr', vr'⟩ := add_spec ha hb fuel hf
  rw [hr', toInt_inj wr' wr (by rw [vr', vr])]

/-- Subtraction returns the difference unless both operands are negative with
different magnitudes. -/
theorem sub_spec {a b : bigint} (ha : wellFormed a) (hb : wellFormed b)
    (h : a.negative = true → b.negative = true → a.number = b.number) (fuel : Nat)
    (hf : 2 * (a.number.length + b.number.length) + 3 ≤ fuel) :
    ∃ r, sub fuel a b = some r ∧ wellFormed r ∧ toInt r = toInt a - toInt b := by
  by_cases heq : a.number = b.number ∧ a.negative = b.negative
  · obtain ⟨f, rfl⟩ : ∃ f, fuel = f + 1 := ⟨fuel - 1, by omega⟩
    rw [sub, if_pos heq]
    refine ⟨zero, rfl, wellFormed_zero, ?_⟩
    have hab : a = b := by
      cases a; cases b
      simp only at heq
      rw [heq.1, heq.2]
    rw [hab, sub_self]
    rfl
  · by_cases hs : a.negative = b.negative
    · have hna : a.negative = false := by
        cases hn : a.negative
        · rfl
        · exact absurd ⟨h hn (by rw [← hs, hn]), hs⟩ heq
      exact sub_nonneg ha hb hna (by rw [← hs, hna]) fuel (by omega)
    · obtain ⟨f, rfl⟩ : ∃ f, fuel = f + 1 := ⟨fuel - 1, by omega⟩
      rw [sub, if_neg heq, if_pos hs]
      obtain ⟨w, v, n, _⟩ := neg_spec hb
      obtain ⟨r, hr, wr, vr⟩ := add_spec ha w f (by rw [n]; omega)
      exact ⟨r, hr, wr, by rw [vr, v]; ring⟩

/-- With enough fuel the difference does not depend on the fuel. -/
theorem sub_result {a b : bigint} (ha : wellFormed a) (hb : wellFormed b)
    (h : a.negative = true → b.negative = true → a.number = b.number) :
    ∃ r, wellFormed r ∧ toInt r = toInt a - toInt b ∧
      ∀ fuel, 2 * (a.number.length + b.number.length) + 3 ≤ fuel → sub fuel a b = some r := by
  obtain ⟨r, _, wr, vr⟩ := sub_spec ha hb h _ (le_refl _)
  refine ⟨r, wr, vr, fun fuel hf => ?_⟩
  obtain ⟨r', hr', wr', vr'⟩ := sub_spec ha hb h fuel hf
  rw [hr', toInt_inj wr' wr (by rw [vr', vr])]

/-! ## The length of a result -/

theorem natAbs_toInt (a : bigint) : (toInt a).natAbs = natVal a.number := by
  unfold toInt
  split <;> simp

theorem length_le_of_natVal_lt {s : List Char} (hd : ∀ c ∈ s, isDigit c)
    (hz : s.head? = some '0' → s = ['0']) (hne : s ≠ []) {k : Nat} (hk : 1 ≤ k)
    (hv : natVal s < 10 ^ k) : s.length ≤ k := by
  by_cases h0 : s = ['0']
  · rw [h0]; exact hk
  · have h1 := pow_le_natVal hd hz hne h0
    have h2 : 10 ^ (s.length - 1) < 10 ^ k := lt_of_le_of_lt h1 hv
    have h3 : s.length - 1 < k := (Nat.pow_lt_pow_iff_right (by norm_num)).mp h2
    omega

theorem pow_add_pow_le {m n : Nat} (hm : 1 ≤ m) (hn : 1 ≤ n) :
    10 ^ m + 10 ^ n ≤ 10 ^ (m + n) := by
  have h1 : 10 ^ 1 ≤ 10 ^ m := Nat.pow_le_pow_right (by norm_num) hm
  have h2 : 10 ^ 1 ≤ 10 ^ n := Nat.pow_le_pow_right (by norm_num) hn
  rw [pow_add]
  nlinarith

/-- A well-formed value whose absolute value is at most the sum of the
magnitudes of two well-formed values is no longer than both together. -/
theorem length_le_of_natAbs_le {a b r : bigint} (ha : wellFormed a) (hb : wellFormed b)
    (hr : wellFormed r) (hv : (toInt r).natAbs ≤ natVal a.number + natVal b.number) :
    r.number.length ≤ a.number.length + b.number.length := by
  have h1 := natVal_lt_pow ha.2.1
  have h2 := natVal_lt_pow hb.2.1
  have hla : 1 ≤ a.number.length := List.length_pos.mpr ha.1
  have hlb : 1 ≤ b.number.length := List.length_pos.mpr hb.1
  have h3 := pow_add_pow_le hla hlb
  rw [natAbs_toInt] at hv
  exact length_le_of_natVal_lt hr.2.1 hr.2.2.1 hr.1 (by omega) (by omega)

theorem natAbs_add_le (a b : bigint) :
    (toInt a + toInt b).natAbs ≤ natVal a.number + natVal b.number := by
  rw [← natAbs_toInt a, ← natAbs_toInt b]
  exact Int.natAbs_add_le _ _

theorem natAbs_sub_le_add (a b : bigint) :
    (toInt a - toInt b).natAbs ≤ natVal a.number + natVal b.number := by
  rw [← natAbs_toInt a, ← natAbs_toInt b]
  exact Int.natAbs_sub_le _ _

/-! ## More fuel does not change a result -/

theorem addLoop_mono (number num : List Char) :
    ∀ (fuel i j : Nat) (next : Int) (sum r : List Char),
      addLoop number num fuel i j next sum = some r →
      addLoop number num (fuel + 1) i j next sum = some r := by
  intro fuel
  induction fuel with
  | zero =>
    intro i j next sum r h
    by_cases hc : i > 0 ∨ j > 0 ∨ next > 0
    · rw [addLoop, if_pos hc] at h
      exact Option.noConfusion h
    · rw [addLoop, if_neg hc] at h
      rw [addLoop, if_neg hc, h]
  | succ f ih =>
    intro i j next sum r h
    by_cases hc : i > 0 ∨ j > 0 ∨ next > 0
    · rw [addLoop_succ _ _ _ _ _ _ _ hc] at h
      rw [addLoop_succ _ _ _ _ _ _ _ hc]
      exact ih _ _ _ _ _ h
    · rw [addLoop, if_neg hc] at h
      rw [addLoop, if_neg hc, h]

theorem subLoop_mono (larger smaller : List Char) :
    ∀ (fuel i j : Nat) (before : Int) (difference r : List Char),
      subLoop larger smaller fuel i j before difference = some r →
      subLoop larger smaller (fuel + 1) i j before difference = some r := by
  intro fuel
  induction fuel with
  | zero =>
    intro i j before difference r h
    by_cases hc : i > 0 ∨ j > 0 ∨ before > 0
    · rw [subLoop_zero _ _ _ _ _ _ hc] at h
      exact Option.noConfusion h
    · rw [subLoop, if_neg hc] at h
      rw [subLoop, if_neg hc, h]
  | succ f ih =>
    intro i j before difference r h
    by_cases hc : i > 0 ∨ j > 0 ∨ before > 0
    · rw [subLoop_succ _ _ _ _ _ _ _ hc] at h
      rw [subLoop_succ _ _ _ _ _ _ _ hc]
      exact ih _ _ _ _ _ h
    · rw [subLoop, if_neg hc] at h
      rw [subLoop, if_neg hc, h]

theorem map_mono {α β : Type} {x y : Option α} (g : α → β) {r : β}
    (hxy : ∀ v, x = some v → y = some v) (h : x.map g = some r) : y.map g = some r := by
  cases x with
  | none => exact Option.noConfusion h
  | some v => rw [hxy v rfl]; exact h

/-- One more unit of fuel returns the same sum and the same difference. -/
theorem add_sub_mono : ∀ (fuel : Nat),
    (∀ a b r, add fuel a b = some r → add (fuel + 1) a b = some r) ∧
    (∀ a b r, sub fuel a b = some r → sub (fuel + 1) a b = some r) := by
  intro fuel
  induction fuel with
  | zero =>
    exact ⟨fun a b r h => by rw [add] at h; exact Option.noConfusion h,
      fun a b r h => by rw [sub] at h; exact Option.noConfusion h⟩
  | succ f ih =>
    constructor
    · intro a b r h
      rw [add] at h
      rw [add]
      by_cases hs : a.negative = b.negative
      · rw [if_pos hs] at h ⊢
        exact map_mono _ (fun v hv => addLoop_mono _ _ _ _ _ _ _ _ hv) h
      · rw [if_neg hs] at h ⊢
        by_cases hn : a.negative = true
        · rw [if_pos hn] at h ⊢
          exact ih.2 _ _ _ h
        · rw [if_neg hn] at h ⊢
          exact ih.2 _ _ _ h
    · intro a b r h
      rw [sub] at h
      rw [sub]
      by_cases heq : a.number = b.number ∧ a.negative = b.negative
      · rw [if_pos heq] at h ⊢
        exact h
      · rw [if_neg heq] at h ⊢
        by_cases hs : a.negative ≠ b.negative
        · rw [if_pos hs] at h ⊢
          exact ih.1 _ _ _ h
        · rw [if_neg hs] at h ⊢
          exact map_mono _ (fun v hv => subLoop_mono _ _ _ _ _ _ _ _ hv) h

theorem add_mono {a b r : bigint} {fuel : Nat} (h : add fuel a b = some r) :
    ∀ k, add (fuel + k) a b = some r := by
  intro k
  induction k with
  | zero => exact h
  | succ k ih => exact (add_sub_mono (fuel + k)).1 a b r ih

theorem sub_mono {a b r : bigint} {fuel : Nat} (h : sub fuel a b = some r) :
    ∀ k, sub (fuel + k) a b = some r := by
  intro k
  induction k with
  | zero => exact h
  | succ k ih => exact (add_sub_mono (fuel + k)).2 a b r ih

/-- Whatever the fuel, a sum that is returned is the sum. -/
theorem add_returned {a b r : bigint} (ha : wellFormed a) (hb : wellFormed b) {fuel : Nat}
    (h : add fuel a b = some r) : wellFormed r ∧ toInt r = toInt a + toInt b := by
  obtain ⟨r', hr', wr', vr'⟩ :=
    add_spec ha hb (fuel + (2 * (a.number.length + b.number.length) + 2)) (by omega)
  rw [add_mono h] at hr'
  rw [Option.some.inj hr']
  exact ⟨wr', vr'⟩

/-- Whatever the fuel, a difference that is returned is the difference. -/
theorem sub_returned {a b r : bigint} (ha : wellFormed a) (hb : wellFormed b) {fuel : Nat}
    (h : sub fuel a b = some r) : wellFormed r ∧ toInt r = toInt a - toInt b := by
  by_cases hneg : a.negative = true → b.negative = true → a.number = b.number
  · obtain ⟨r', hr', wr', vr'⟩ :=
      sub_spec ha hb hneg (fuel + (2 * (a.number.length + b.number.length) + 3)) (by omega)
    rw [sub_mono h] at hr'
    rw [Option.some.inj hr']
    exact ⟨wr', vr'⟩
  · push_neg at hneg
    rw [sub_negative_diverges ha hb hneg.1 hneg.2.1 hneg.2.2] at h
    exact Option.noConfusion h

/-! ## The observations of the multiplication -/

theorem mul_cell_nonneg {a b r : Nat} {next : Int} (h0 : 0 ≤ next) :
    0 ≤ (a : Int) * b + r + next := by
  have hab : (0 : Int) ≤ (a : Int) * b := by positivity
  omega

theorem mulInnerTrace_length (number num : List Char) (i : Nat) :
    ∀ (j : Nat) (next : Int) (res : List Char),
      (mulInnerTrace number num i j next res).length = j := by
  intro j
  induction j with
  | zero => intro next res; rfl
  | succ j ih =>
    intro next res
    rw [mulInnerTrace, List.length_cons, ih]

theorem mulOuterTrace_length (number num : List Char) :
    ∀ (i : Nat) (res : List Char),
      (mulOuterTrace number num i res).length = i * (num.length + 1) := by
  intro i
  induction i with
  | zero => intro res; simp [mulOuterTrace]
  | succ i ih =>
    intro res
    rw [mulOuterTrace, List.length_append, List.length_cons, ih, mulInnerTrace_length]
    ring

/-- Every observation of the inner loop is safe. -/
theorem mulInnerTrace_safe {number num : List Char} (hm : ∀ c ∈ num, isDigit c) (i a : Nat)
    (ha : a ≤ 9) (hda : digitVal (number.getD (i - 1) '0') = a) :
    ∀ (j : Nat) (next : Int) (res : List Char) (e : Nat), j ≤ num.length →
      res.length = i + j + e → (∀ c ∈ res, isDigit c) → 0 ≤ next → next ≤ 9 →
      ∀ ev ∈ mulInnerTrace number num i j next res, ev.safe res.length := by
  intro j
  induction j with
  | zero =>
    intro next res e _ _ _ _ _ ev hev
    simp [mulInnerTrace] at hev
  | succ j ih =>
    intro next res e hj hlen hres h0 h9 ev hev
    have hp : i + (j + 1) - 1 = i + j := by omega
    rw [mulInnerTrace, hp] at hev
    have hb := isDigit_getD hm j
    have hr := isDigit_getD hres (i + j)
    rw [hda, digitVal_eq hb, digitVal_eq hr] at hev
    obtain ⟨hq, hmod, q0, q9, r0, r9, m99⟩ :=
      mul_cell ha (digitNat_le hb) (digitNat_le hr) h0 h9
    have m0 := mul_cell_nonneg (a := a) (b := digitNat (num.getD j '0'))
      (r := digitNat (res.getD (i + j) '0')) h0
    rw [hq, hmod] at hev
    obtain ⟨hc1, _⟩ := charOfInt_digit r0 r9
    rcases List.mem_cons.mp hev with h | h
    · rw [h]
      exact ⟨m0, m99, q0, q9, List.length_set _ _ _, isDigit_set hres _ hc1⟩
    · have := ih _ _ (e + 1) (by omega) (by rw [List.length_set]; omega)
        (isDigit_set hres _ hc1) q0 q9 ev h
      rw [List.length_set] at this
      exact this

/-- Every observation of the double loop is safe, provided the cells in front
of the current row still hold `'0'`. -/
theorem mulOuterTrace_safe {number num : List Char} (hn : ∀ c ∈ number, isDigit c)
    (hm : ∀ c ∈ num, isDigit c) :
    ∀ (i : Nat) (res : List Char), i ≤ number.length →
      res.length = number.length + num.length → (∀ c ∈ res, isDigit c) →
      (∀ k, k < i → res.getD k '0' = '0') →
      ∀ ev ∈ mulOuterTrace number num i res, ev.safe (number.length + num.length) := by
  intro i
  induction i with
  | zero =>
    intro res _ _ _ _ ev hev
    simp [mulOuterTrace] at hev
  | succ i ih =>
    intro res hi hlen hres hz ev hev
    rw [mulOuterTrace] at hev
    have ha := isDigit_getD hn i
    have hda : digitVal (number.getD (i + 1 - 1) '0') = (digitNat (number.getD i '0') : Int) := by
      rw [Nat.add_sub_cancel]; exact digitVal_eq ha
    obtain ⟨res1, next1, r1, r2, r3, r4, r5, r6, _⟩ :=
      @mulInner_spec number num hm (i + 1) (digitNat (number.getD i '0')) (digitNat_le ha) hda
        num.length 0 res (number.length - (i + 1)) (le_refl _) (by omega) hres (le_refl _)
        (by norm_num)
    rw [r1] at hev
    simp only [] at hev
    have hcell : res1.getD i '0' = '0' := by rw [r6 i (by omega), hz i (by omega)]
    have hch : charOfInt ((('0' : Char).toNat : Int) + next1) = charOfInt (next1 + 48) := by
      congr 1
      rw [add_comm]
      rfl
    rw [hcell, hch] at hev
    obtain ⟨hc1, _⟩ := charOfInt_digit r4 r5
    rcases List.mem_append.mp hev with h | h
    · have := @mulInnerTrace_safe number num hm (i + 1) (digitNat (number.getD i '0'))
        (digitNat_le ha) hda num.length 0 res (number.length - (i + 1)) (le_refl _) (by omega)
        hres (le_refl _) (by norm_num) ev h
      rw [hlen] at this
      exact this
    · rcases List.mem_cons.mp h with h | h
      · rw [h]
        exact ⟨rfl, r4, r5, by rw [List.length_set, r2, hlen], isDigit_set r3 _ hc1⟩
      · exact ih _ (by omega) (by rw [List.length_set, r2, hlen]) (isDigit_set r3 _ hc1)
          (by
            intro k hk
            rw [getD_set_ne _ _ (by omega), r6 k (by omega), hz k (by omega)]) ev h

/-! ## Every integer has a canonical form -/

/-- Every natural number is the value of a canonical magnitude. -/
theorem exists_canonical (n : Nat) :
    ∃ s : List Char, s ≠ [] ∧ (∀ c ∈ s, isDigit c) ∧ (s.head? = some '0' → s = ['0']) ∧
      natVal s = n := by
  induction n using Nat.strong_induction_on with
  | _ n ih =>
    obtain ⟨_, _, hd, hv⟩ := digit_table (n % 10) (Nat.mod_lt _ (by norm_num))
    by_cases hn : n < 10
    · refine ⟨[Char.ofNat (48 + n % 10)], by simp, ?_, ?_, ?_⟩
      · intro c hc
        rw [List.mem_singleton.mp hc]
        exact hd
      · intro h
        simp only [List.head?_cons, Option.some.injEq] at h
        rw [h]
      · rw [natVal_singleton, hv]
        omega
    · obtain ⟨s, s1, s2, s3, s4⟩ := ih (n / 10) (by omega)
      refine ⟨s ++ [Char.ofNat (48 + n % 10)], by simp, ?_, ?_, ?_⟩
      · intro c hc
        rcases List.mem_append.mp hc with h | h
        · exact s2 c h
        · rw [List.mem_singleton.mp h]
          exact hd
      · intro h
        exfalso
        cases s with
        | nil => exact s1 rfl
        | cons x xs =>
          have hx : (x :: xs).head? = some '0' := by simpa using h
          have := s3 hx
          rw [this] at s4
          have h0 : natVal ['0'] = 0 := rfl
          omega
      · rw [natVal_append_singleton, s4, hv]
        omega

/-- Every integer is the meaning of a well-formed value. -/
theorem exists_wellFormed (n : Int) : ∃ r, wellFormed r ∧ toInt r = n := by
  obtain ⟨s, s1, s2, s3, s4⟩ := exists_canonical n.natAbs
  by_cases hn : 0 ≤ n
  · refine ⟨⟨s, false⟩, ⟨s1, s2, s3, fun _ => rfl⟩, ?_⟩
    simp only [toInt, Bool.false_eq_true, if_false]
    rw [s4]
    omega
  · refine ⟨⟨s, true⟩, ⟨s1, s2, s3, fun h => ?_⟩, ?_⟩
    · exfalso
      simp only at h
      rw [h] at s4
      have h0 : natVal ['0'] = 0 := rfl
      omega
    · simp only [toInt, if_true]
      rw [s4]
      omega

theorem gt_iff {a b : bigint} (ha : wellFormed a) (hb : wellFormed b) :
    gt a b = true ↔ toInt b < toInt a := by
  unfold gt
  have h1 := lt_spec ha hb
  have h2 := beq_iff a b
  by_cases hc : lt a b = true ∨ beq a b = true
  · rw [if_pos hc]
    constructor
    · intro h; exact absurd h (by decide)
    · intro h
      rcases hc with hc | hc
      · have := h1.mp hc; omega
      · have := h2.mp hc; rw [this] at h; omega
  · rw [if_neg hc]
    push_neg at hc
    constructor
    · intro _
      have hlt : ¬ toInt a < toInt b := fun h => hc.1 (h1.mpr h)
      have hne : toInt a ≠ toInt b := fun h => hc.2 (h2.mpr (toInt_inj ha hb h))
      omega
    · intro _; rfl

/-! ## The claims of the specification: algebra, order and invariants -/

/-- C11: for well-formed `a` and `b` of any length and any signs, `a + b` and
`b + a` return the same value, for every fuel from `2 * (len a + len b) + 2` on. -/
theorem add_commutative (a b : bigint) (ha : wellFormed a) (hb : wellFormed b) :
    ∃ r, ∀ fuel, 2 * (a.number.length + b.number.length) + 2 ≤ fuel →
      add fuel a b = some r ∧ add fuel b a = some r := by
  obtain ⟨r, wr, vr, hr⟩ := add_result ha hb
  obtain ⟨r', wr', vr', hr'⟩ := add_result hb ha
  have he : r' = r := toInt_inj wr' wr (by rw [vr', vr]; ring)
  refine ⟨r, fun fuel hf => ⟨hr fuel hf, ?_⟩⟩
  rw [hr' fuel (by omega), he]

/-- The sums `(-12345) + 678` and `678 + (-12345)`, an instance of C11. -/
theorem add_commutative_witness :
    wellFormed ⟨['1', '2', '3', '4', '5'], true⟩ ∧ wellFormed ⟨['6', '7', '8'], false⟩ ∧
      ∃ r, ∀ fuel, 2 * (5 + 3) + 2 ≤ fuel →
        add fuel ⟨['1', '2', '3', '4', '5'], true⟩ ⟨['6', '7', '8'], false⟩ = some r ∧
        add fuel ⟨['6', '7', '8'], false⟩ ⟨['1', '2', '3', '4', '5'], true⟩ = some r :=
  ⟨by decide, by decide,
    add_commutative ⟨['1', '2', '3', '4', '5'], true⟩ ⟨['6', '7', '8'], false⟩ (by decide)
      (by decide)⟩

/-- C12: for well-formed `a`, `b` and `c`, `(a + b) + c` and `a + (b + c)`
return the same value, for every fuel from `2 * (len a + len b + len c) + 2` on. -/
theorem add_associative (a b c : bigint) (ha : wellFormed a) (hb : wellFormed b)
    (hc : wellFormed c) :
    ∃ ab bc r, ∀ fuel,
      2 * (a.number.length + b.number.length + c.number.length) + 2 ≤ fuel →
      add fuel a b = some ab ∧ add fuel ab c = some r ∧
        add fuel b c = some bc ∧ add fuel a bc = some r := by
  obtain ⟨ab, wab, vab, hab⟩ := add_result ha hb
  obtain ⟨bc, wbc, vbc, hbc⟩ := add_result hb hc
  obtain ⟨r, wr, vr, hr⟩ := add_result wab hc
  obtain ⟨r', wr', vr', hr'⟩ := add_result ha wbc
  have he : r' = r := toInt_inj wr' wr (by rw [vr', vr, vab, vbc]; ring)
  have lab := length_le_of_natAbs_le ha hb wab (by rw [vab]; exact natAbs_add_le a b)
  have lbc := length_le_of_natAbs_le hb hc wbc (by rw [vbc]; exact natAbs_add_le b c)
  refine ⟨ab, bc, r, fun fuel hf => ⟨hab fuel (by omega), hr fuel (by omega),
    hbc fuel (by omega), ?_⟩⟩
  rw [hr' fuel (by omega), he]

/-- The sums `(7 + (-9)) + 5` and `7 + ((-9) + 5)`, an instance of C12. -/
theorem add_associative_witness :
    wellFormed ⟨['7'], false⟩ ∧ wellFormed ⟨['9'], true⟩ ∧ wellFormed ⟨['5'], false⟩ ∧
      ∃ ab bc r, ∀ fuel, 2 * (1 + 1 + 1) + 2 ≤ fuel →
        add fuel ⟨['7'], false⟩ ⟨['9'], true⟩ = some ab ∧ add fuel ab ⟨['5'], false⟩ = some r ∧
          add fuel ⟨['9'], true⟩ ⟨['5'], false⟩ = some bc ∧
          add fuel ⟨['7'], false⟩ bc = some r :=
  ⟨by decide, by decide, by decide,
    add_associative ⟨['7'], false⟩ ⟨['9'], true⟩ ⟨['5'], false⟩ (by decide) (by decide)
      (by decide)⟩

/-- C13: for a well-formed `a`, `a + 0` returns `a` and `a + (-a)` returns the
canonical zero, for every fuel from `4 * len a + 2` on. -/
theorem add_identity_inverse (a : bigint) (ha : wellFormed a) :
    ∀ fuel, 4 * a.number.length + 2 ≤ fuel →
      add fuel a zero = some a ∧ add fuel a (neg a) = some zero := by
  intro fuel hf
  have hla : 1 ≤ a.number.length := List.length_pos.mpr ha.1
  obtain ⟨wn, vn, nn, _⟩ := neg_spec ha
  obtain ⟨r, hr, wr, vr⟩ := add_spec ha wellFormed_zero fuel (by
    show 2 * (a.number.length + 1) + 2 ≤ fuel
    omega)
  obtain ⟨r', hr', wr', vr'⟩ := add_spec ha wn fuel (by rw [nn]; omega)
  have hz : toInt zero = 0 := rfl
  have e1 : r = a := toInt_inj wr ha (by rw [vr, hz, add_zero])
  have e2 : r' = zero := toInt_inj wr' wellFormed_zero (by rw [vr', vn, hz]; ring)
  rw [hr, hr', e1, e2]
  exact ⟨rfl, rfl⟩

/-- The sums `(-42) + 0` and `(-42) + 42`, an instance of C13. -/
theorem add_identity_inverse_witness :
    wellFormed ⟨['4', '2'], true⟩ ∧
      ∀ fuel, 4 * 2 + 2 ≤ fuel →
        add fuel ⟨['4', '2'], true⟩ zero = some ⟨['4', '2'], true⟩ ∧
        add fuel ⟨['4', '2'], true⟩ (neg ⟨['4', '2'], true⟩) = some zero :=
  ⟨by decide, add_identity_inverse ⟨['4', '2'], true⟩ (by decide)⟩

/-- C14: for a well-formed `a`, `a * 1` is `a` and `a * 0` is the canonical
zero with the sign flag false, whatever the sign of `a`. -/
theorem mul_identity_absorption (a : bigint) (ha : wellFormed a) :
    mul a (ofInt64 1) = a ∧ mul a (ofInt64 0) = zero ∧ mul a zero = zero ∧
      (mul a zero).negative = false ∧ beq (mul a (ofInt64 1)) a = true := by
  have h1 : ofInt64 1 = ⟨['1'], false⟩ := by decide
  have h0 : ofInt64 0 = zero := by decide
  have w1 : wellFormed ⟨['1'], false⟩ := by decide
  have v1 : toInt ⟨['1'], false⟩ = 1 := by decide
  have hz : mul a zero = zero := by
    unfold mul
    exact if_pos (Or.inr rfl)
  have hone : mul a ⟨['1'], false⟩ = a := by
    obtain ⟨w, v, _⟩ := mul_spec ha w1
    exact toInt_inj w ha (by rw [v, v1, mul_one])
  rw [h1, h0, hz, hone]
  exact ⟨rfl, rfl, rfl, rfl, (beq_iff a a).mpr rfl⟩

/-- The products `(-12345) * 1` and `(-12345) * 0`, an instance of C14. -/
theorem mul_identity_absorption_witness :
    wellFormed ⟨['1', '2', '3', '4', '5'], true⟩ ∧
      mul ⟨['1', '2', '3', '4', '5'], true⟩ (ofInt64 1) = ⟨['1', '2', '3', '4', '5'], true⟩ ∧
      mul ⟨['1', '2', '3', '4', '5'], true⟩ (ofInt64 0) = zero :=
  ⟨by decide, (mul_identity_absorption _ (by decide)).1,
    (mul_identity_absorption _ (by decide)).2.1⟩

/-- C15: the comparison operators form a strict total order on well-formed
values: exactly one of `a < b`, `a == b`, `a > b` holds, where `a > b` is the
same as `b < a`; any two different values are comparable by `<`; `<` is
irreflexive, asymmetric and transitive; and `<` is the order of the integer
meanings. -/
theorem order_strict_total (a b c : bigint) (ha : wellFormed a) (hb : wellFormed b)
    (hc : wellFormed c) :
    ((lt a b = true ∧ beq a b = false ∧ gt a b = false) ∨
      (lt a b = false ∧ beq a b = true ∧ gt a b = false) ∨
      (lt a b = false ∧ beq a b = false ∧ gt a b = true)) ∧
    (lt a b = true → lt b c = true → lt a c = true) ∧
    (gt a b = true ↔ lt b a = true) ∧
    (a ≠ b → lt a b = true ∨ lt b a = true) ∧
    lt a a = false ∧
    (lt a b = true → lt b a = false) ∧
    (lt a b = true ↔ toInt a < toInt b) ∧
    (gt a b = true ↔ toInt b < toInt a) := by
  have h1 := lt_spec ha hb
  have h1' := lt_spec hb ha
  have h2 : beq a b = true ↔ toInt a = toInt b :=
    (beq_iff a b).trans ⟨fun h => by rw [h], toInt_inj ha hb⟩
  have h3 := gt_iff ha hb
  refine ⟨?_, ?_, h3.trans h1'.symm, ?_, ?_, ?_, h1, h3⟩
  · rcases lt_trichotomy (toInt a) (toInt b) with h | h | h
    · refine Or.inl ⟨h1.mpr h, ?_, ?_⟩
      · cases hq : beq a b
        · rfl
        · have := h2.mp hq; omega
      · cases hq : gt a b
        · rfl
        · have := h3.mp hq; omega
    · refine Or.inr (Or.inl ⟨?_, h2.mpr h, ?_⟩)
      · cases hq : lt a b
        · rfl
        · have := h1.mp hq; omega
      · cases hq : gt a b
        · rfl
        · have := h3.mp hq; omega
    · refine Or.inr (Or.inr ⟨?_, ?_, h3.mpr h⟩)
      · cases hq : lt a b
        · rfl
        · have := h1.mp hq; omega
      · cases hq : beq a b
        · rfl
        · have := h2.mp hq; omega
  · intro hab hbc
    have := h1.mp hab
    have := (lt_spec hb hc).mp hbc
    exact (lt_spec ha hc).mpr (by omega)
  · intro hne
    have hv : toInt a ≠ toInt b := fun h => hne (toInt_inj ha hb h)
    rcases lt_or_gt_of_ne hv with h | h
    · exact Or.inl (h1.mpr h)
    · exact Or.inr (h1'.mpr h)
  · cases hq : lt a a
    · rfl
    · exact absurd ((lt_spec ha ha).mp hq) (lt_irrefl _)
  · intro hab
    cases hq : lt b a
    · rfl
    · have := h1.mp hab
      have := h1'.mp hq
      omega

/-- The values `-67890`, `-12345` and `12345`, an instance of C15. -/
theorem order_strict_total_witness :
    wellFormed ⟨['6', '7', '8', '9', '0'], true⟩ ∧
      wellFormed ⟨['1', '2', '3', '4', '5'], true⟩ ∧
      wellFormed ⟨['1', '2', '3', '4', '5'], false⟩ ∧
      (lt ⟨['6', '7', '8', '9', '0'], true⟩ ⟨['1', '2', '3', '4', '5'], true⟩ = true →
        lt ⟨['1', '2', '3', '4', '5'], true⟩ ⟨['1', '2', '3', '4', '5'], false⟩ = true →
        lt ⟨['6', '7', '8', '9', '0'], true⟩ ⟨['1', '2', '3', '4', '5'], false⟩ = true) ∧
      (gt ⟨['6', '7', '8', '9', '0'], true⟩ ⟨['1', '2', '3', '4', '5'], true⟩ = true ↔
        lt ⟨['1', '2', '3', '4', '5'], true⟩ ⟨['6', '7', '8', '9', '0'], true⟩ = true) ∧
      ((⟨['6', '7', '8', '9', '0'], true⟩ : bigint) ≠ ⟨['1', '2', '3', '4', '5'], true⟩ →
        lt ⟨['6', '7', '8', '9', '0'], true⟩ ⟨['1', '2', '3', '4', '5'], true⟩ = true ∨
        lt ⟨['1', '2', '3', '4', '5'], true⟩ ⟨['6', '7', '8', '9', '0'], true⟩ = true) :=
  ⟨by decide, by decide, by decide,
    (order_strict_total ⟨['6', '7', '8', '9', '0'], true⟩ ⟨['1', '2', '3', '4', '5'], true⟩
      ⟨['1', '2', '3', '4', '5'], false⟩ (by decide) (by decide) (by decide)).2.1,
    (order_strict_total ⟨['6', '7', '8', '9', '0'], true⟩ ⟨['1', '2', '3', '4', '5'], true⟩
      ⟨['1', '2', '3', '4', '5'], false⟩ (by decide) (by decide) (by decide)).2.2.1,
    (order_strict_total ⟨['6', '7', '8', '9', '0'], true⟩ ⟨['1', '2', '3', '4', '5'], true⟩
      ⟨['1', '2', '3', '4', '5'], false⟩ (by decide) (by decide) (by decide)).2.2.2.1⟩

/-- C16: on well-formed values `a == b` holds exactly when `int(a) = int(b)`,
and every integer is the meaning of exactly one well-formed value. -/
theorem beq_iff_toInt_eq (a b : bigint) (ha : wellFormed a) (hb : wellFormed b) :
    (beq a b = true ↔ toInt a = toInt b) ∧
      ∀ n : Int, ∃! r, wellFormed r ∧ toInt r = n := by
  refine ⟨(beq_iff a b).trans ⟨fun h => by rw [h], toInt_inj ha hb⟩, fun n => ?_⟩
  obtain ⟨r, wr, vr⟩ := exists_wellFormed n
  exact ⟨r, ⟨wr, vr⟩, fun r' h => toInt_inj h.1 wr (by rw [h.2, vr])⟩

/-- The values `-12345` and `12345`, an instance of C16. -/
theorem beq_iff_toInt_eq_witness :
    wellFormed ⟨['1', '2', '3', '4', '5'], true⟩ ∧
      wellFormed ⟨['1', '2', '3', '4', '5'], false⟩ ∧
      (beq ⟨['1', '2', '3', '4', '5'], true⟩ ⟨['1', '2', '3', '4', '5'], false⟩ = true ↔
        toInt ⟨['1', '2', '3', '4', '5'], true⟩ = toInt ⟨['1', '2', '3', '4', '5'], false⟩) :=
  ⟨by decide, by decide, (beq_iff_toInt_eq _ _ (by decide) (by decide)).1⟩

/-- C17: for well-formed `a` and `b`, whatever `a + b` or `a - b` returns
(with any fuel) is well-formed, and so are `a * b` and `-a`. -/
theorem wellFormed_preserved (a b : bigint) (ha : wellFormed a) (hb : wellFormed b) :
    (∀ fuel r, add fuel a b = some r → wellFormed r) ∧
      (∀ fuel r, sub fuel a b = some r → wellFormed r) ∧
      wellFormed (mul a b) ∧ wellFormed (neg a) :=
  ⟨fun _ _ h => (add_returned ha hb h).1, fun _ _ h => (sub_returned ha hb h).1,
    (mul_spec ha hb).1, (neg_spec ha).1⟩

/-- The operands `-99` and `1`, an instance of C17. -/
theorem wellFormed_preserved_witness :
    wellFormed ⟨['9', '9'], true⟩ ∧ wellFormed ⟨['1'], false⟩ ∧
      (∀ fuel r, add fuel ⟨['9', '9'], true⟩ ⟨['1'], false⟩ = some r → wellFormed r) ∧
      (∀ fuel r, sub fuel ⟨['9', '9'], true⟩ ⟨['1'], false⟩ = some r → wellFormed r) ∧
      wellFormed (mul ⟨['9', '9'], true⟩ ⟨['1'], false⟩) ∧ wellFormed (neg ⟨['9', '9'], true⟩) :=
  ⟨by decide, by decide, wellFormed_preserved _ _ (by decide) (by decide)⟩

/-- C18: for a well-formed `a`, incrementing and then decrementing restores
`a`: `a + 1` returns a value `c` and `c - 1` returns `a`, for every fuel from
`2 * len a + 7` on, whatever the sign of `a`. -/
theorem increment_decrement (a : bigint) (ha : wellFormed a) :
    ∃ c, wellFormed c ∧ toInt c = toInt a + 1 ∧
      ∀ fuel, 2 * a.number.length + 7 ≤ fuel →
        preIncrement fuel a = some c ∧ preDecrement fuel c = some a ∧
        postIncrement fuel a = some (a, c) ∧ postDecrement fuel c = some (c, a) := by
  have h1 : ofInt64 1 = ⟨['1'], false⟩ := by decide
  have w1 : wellFormed ⟨['1'], false⟩ := by decide
  have v1 : toInt ⟨['1'], false⟩ = 1 := by decide
  obtain ⟨c, wc, vc, hc⟩ := add_result ha w1
  rw [v1] at vc
  have lc := length_le_of_natAbs_le ha w1 wc (by
    rw [vc, ← v1]; exact natAbs_add_le a ⟨['1'], false⟩)
  obtain ⟨r, wr, vr, hr⟩ := sub_result wc w1 (fun _ h => absurd h (by decide))
  have he : r = a := toInt_inj wr ha (by rw [vr, vc, v1]; ring)
  rw [he] at hr
  have l1 : (⟨['1'], false⟩ : bigint).number.length = 1 := rfl
  rw [l1] at hc hr lc
  refine ⟨c, wc, vc, fun fuel hf => ?_⟩
  unfold preIncrement preDecrement postIncrement postDecrement
  rw [h1, hc fuel (by omega), hr fuel (by omega)]
  exact ⟨rfl, rfl, rfl, rfl⟩

/-- The value `-1`, whose increment is zero, an instance of C18. -/
theorem increment_decrement_witness :
    wellFormed ⟨['1'], true⟩ ∧
      ∃ c, wellFormed c ∧ toInt c = toInt ⟨['1'], true⟩ + 1 ∧
        ∀ fuel, 2 * 1 + 7 ≤ fuel →
          preIncrement fuel ⟨['1'], true⟩ = some c ∧
          preDecrement fuel c = some ⟨['1'], true⟩ ∧
          postIncrement fuel ⟨['1'], true⟩ = some (⟨['1'], true⟩, c) ∧
          postDecrement fuel c = some (c, ⟨['1'], true⟩) :=
  ⟨by decide, increment_decrement ⟨['1'], true⟩ (by decide)⟩

/-- C19: for a well-formed `a`, `-a` has the magnitude of `a` and the opposite
sign flag, except that the negation of zero is zero with the flag false; hence
`int(-a) = -int(a)` and `-(-a)` is `a`. -/
theorem neg_correct (a : bigint) (ha : wellFormed a) :
    (neg a).number = a.number ∧
      (a.number ≠ ['0'] → (neg a).negative = !a.negative) ∧
      (a.number = ['0'] → neg a = zero) ∧
      wellFormed (neg a) ∧ toInt (neg a) = -toInt a ∧ neg (neg a) = a := by
  obtain ⟨w, v, n, s⟩ := neg_spec ha
  obtain ⟨_, v2, _, _⟩ := neg_spec w
  refine ⟨n, s, fun h0 => ?_, w, v, toInt_inj (neg_spec w).1 ha (by rw [v2, v]; ring)⟩
  have hz : toInt a = 0 := toInt_eq_zero_of_zero h0
  exact toInt_inj w wellFormed_zero (by rw [v, hz]; rfl)

/-- The negation of `12345`, an instance of C19. -/
theorem neg_correct_witness :
    wellFormed ⟨['1', '2', '3', '4', '5'], false⟩ ∧
      (neg ⟨['1', '2', '3', '4', '5'], false⟩).number = ['1', '2', '3', '4', '5'] ∧
      (['1', '2', '3', '4', '5'] ≠ ['0'] →
        (neg ⟨['1', '2', '3', '4', '5'], false⟩).negative = !false) :=
  ⟨by decide, (neg_correct ⟨['1', '2', '3', '4', '5'], false⟩ (by decide)).1,
    (neg_correct ⟨['1', '2', '3', '4', '5'], false⟩ (by decide)).2.1⟩

theorem getLast_append_cons (xs ys : List MulEvent) (e : MulEvent) (v : List Char)
    (h : ys.getLast?.map MulEvent.buffer = some v ∨ (ys = [] ∧ e.buffer = v)) :
    (xs ++ e :: ys).getLast?.map MulEvent.buffer = some v := by
  rw [List.getLast?_append_of_ne_nil _ (List.cons_ne_nil _ _), List.getLast?_cons]
  rcases h with h | ⟨h1, h2⟩
  · cases hy : ys.getLast? with
    | none => rw [hy] at h; exact Option.noConfusion h
    | some y =>
      rw [hy] at h
      exact h
  · rw [h1, ← h2]
    rfl

/-- The buffer after the last observation of the double loop is the buffer
that `mulOuter` returns. -/
theorem mulOuterTrace_last (number num : List Char) :
    ∀ (i : Nat) (res : List Char), 0 < i →
      (mulOuterTrace number num i res).getLast?.map MulEvent.buffer
        = some (mulOuter number num i res) := by
  intro i
  induction i with
  | zero => intro res h; exact absurd h (Nat.lt_irrefl 0)
  | succ i ih =>
    intro res _
    rw [mulOuterTrace, mulOuter]
    apply getLast_append_cons
    by_cases hi : 0 < i
    · exact Or.inl (ih _ hi)
    · have h0 : i = 0 := by omega
      subst h0
      exact Or.inr ⟨rfl, rfl⟩

/-- C20: in the multiplication of two well-formed non-zero values every
observation of the double loop is safe: `mul` is at most `99`, the carry `next`
at most `9`, the cell `res[i-1]` holds `'0'` when it receives the final carry of
a row, and after every step all `len a + len b` cells of the buffer are decimal
digits; the loop makes `len a * (len b + 1)` such steps, its last buffer is the
one `mulOuter` leaves, and the product is that buffer without leading zeros. -/
theorem mul_never_overflows (a b : bigint) (ha : wellFormed a) (hb : wellFormed b)
    (ha0 : a.number ≠ ['0']) (hb0 : b.number ≠ ['0']) :
    (∀ ev ∈ mulOuterTrace a.number b.number a.number.length
        (List.replicate (a.number.length + b.number.length) '0'),
      ev.safe (a.number.length + b.number.length)) ∧
    (mulOuterTrace a.number b.number a.number.length
        (List.replicate (a.number.length + b.number.length) '0')).length
      = a.number.length * (b.number.length + 1) ∧
    (mul a b).number = removeZeros (mulOuter a.number b.number a.number.length
        (List.replicate (a.number.length + b.number.length) '0')) ∧
    (mulOuterTrace a.number b.number a.number.length
        (List.replicate (a.number.length + b.number.length) '0')).getLast?.map MulEvent.buffer
      = some (mulOuter a.number b.number a.number.length
        (List.replicate (a.number.length + b.number.length) '0')) := by
  refine ⟨?_, mulOuterTrace_length _ _ _ _, ?_,
    mulOuterTrace_last _ _ _ _ (List.length_pos.mpr ha.1)⟩
  · exact mulOuterTrace_safe ha.2.1 hb.2.1 a.number.length _ (le_refl _) (by simp)
      (by intro c hc; rw [List.eq_of_mem_replicate hc]; decide)
      (fun k _ => getD_replicate_zero _ k)
  · unfold mul
    rw [if_neg (by
      intro h
      rcases h with h | h
      · exact ha0 h
      · exact hb0 h)]

/-- The product `99 * 99`, whose rows carry the most, an instance of C20. -/
theorem mul_never_overflows_witness :
    wellFormed ⟨['9', '9'], false⟩ ∧ (['9', '9'] : List Char) ≠ ['0'] ∧
      (∀ ev ∈ mulOuterTrace ['9', '9'] ['9', '9'] 2 (List.replicate (2 + 2) '0'),
        ev.safe (2 + 2)) ∧
      (mulOuterTrace ['9', '9'] ['9', '9'] 2 (List.replicate (2 + 2) '0')).length
        = 2 * (2 + 1) :=
  ⟨by decide, by decide,
    (mul_never_overflows ⟨['9', '9'], false⟩ ⟨['9', '9'], false⟩ (by decide) (by decide)
      (by decide) (by decide)).1,
    (mul_never_overflows ⟨['9', '9'], false⟩ ⟨['9', '9'], false⟩ (by decide) (by decide)
      (by decide) (by decide)).2.1⟩

/-! ## The exit state of the borrow loop -/

theorem subLoopExit_succ (larger smaller : List Char) (fuel i j : Nat) (before : Int)
    (difference : List Char) (h : i > 0 ∨ j > 0 ∨ before > 0) :
    subLoopExit larger smaller (fuel + 1) i j before difference =
      subLoopExit larger smaller fuel (if i > 0 then i - 1 else i) (if j > 0 then j - 1 else j)
        (if (if i > 0 then digitVal (larger.getD (i - 1) '0') else 0)
          - (if j > 0 then digitVal (smaller.getD (j - 1) '0') else 0) - before < 0 then 1 else 0)
        (difference ++ to_string
          (if (if i > 0 then digitVal (larger.getD (i - 1) '0') else 0)
            - (if j > 0 then digitVal (smaller.getD (j - 1) '0') else 0) - before < 0
          then (if i > 0 then digitVal (larger.getD (i - 1) '0') else 0)
            - (if j > 0 then digitVal (smaller.getD (j - 1) '0') else 0) - before + 10
          else (if i > 0 then digitVal (larger.getD (i - 1) '0') else 0)
            - (if j > 0 then digitVal (smaller.getD (j - 1) '0') else 0) - before)) := by
  rw [subLoopExit, if_pos h]

/-- The instrumented loop returns the `difference` that `subLoop` returns. -/
theorem subLoopExit_difference (larger smaller : List Char) :
    ∀ (fuel i j : Nat) (before : Int) (difference : List Char),
      (subLoopExit larger smaller fuel i j before difference).map (fun state => state.2.2.2)
        = subLoop larger smaller fuel i j before difference := by
  intro fuel
  induction fuel with
  | zero =>
    intro i j before difference
    by_cases hc : i > 0 ∨ j > 0 ∨ before > 0
    · rw [subLoop_zero _ _ _ _ _ _ hc, subLoopExit, if_pos hc]
      rfl
    · rw [subLoop, if_neg hc, subLoopExit, if_neg hc]
      rfl
  | succ f ih =>
    intro i j before difference
    by_cases hc : i > 0 ∨ j > 0 ∨ before > 0
    · rw [subLoop_succ _ _ _ _ _ _ _ hc, subLoopExit_succ _ _ _ _ _ _ _ hc]
      exact ih _ _ _ _
    · rw [subLoop, if_neg hc, subLoopExit, if_neg hc]
      rfl

theorem borrow_nonneg (p : Prop) [Decidable p] : (0 : Int) ≤ if p then 1 else 0 := by
  by_cases h : p
  · rw [if_pos h]; norm_num
  · rw [if_neg h]

/-- Whenever the borrow loop exits, both operands are exhausted and the final
borrow is `0`. -/
theorem subLoopExit_state (larger smaller : List Char) :
    ∀ (fuel i j : Nat) (before : Int) (difference : List Char)
      (state : Nat × Nat × Int × List Char), 0 ≤ before →
      subLoopExit larger smaller fuel i j before difference = some state →
      state.1 = 0 ∧ state.2.1 = 0 ∧ state.2.2.1 = 0 := by
  intro fuel
  induction fuel with
  | zero =>
    intro i j before difference state h0 h
    by_cases hc : i > 0 ∨ j > 0 ∨ before > 0
    · rw [subLoopExit, if_pos hc] at h
      exact Option.noConfusion h
    · rw [subLoopExit, if_neg hc] at h
      rw [← Option.some.inj h]
      refine ⟨?_, ?_, ?_⟩ <;> simp only [] <;> omega
  | succ f ih =>
    intro i j before difference state h0 h
    by_cases hc : i > 0 ∨ j > 0 ∨ before > 0
    · rw [subLoopExit_succ _ _ _ _ _ _ _ hc] at h
      exact ih _ _ _ _ state (borrow_nonneg _) h
    · rw [subLoopExit, if_neg hc] at h
      rw [← Option.some.inj h]
      refine ⟨?_, ?_, ?_⟩ <;> simp only [] <;> omega

theorem map_fst_map {α β γ : Type} (x : Option α) (f : α → β) (g : α → γ) :
    (x.map fun v => (f v, g v)).map Prod.fst = x.map f := by
  cases x <;> rfl

/-- The instrumented operators return the results of `add` and `sub`. -/
theorem borrow_fst : ∀ (fuel : Nat),
    (∀ a b, (addBorrow fuel a b).map Prod.fst = add fuel a b) ∧
    (∀ a b, (subBorrow fuel a b).map Prod.fst = sub fuel a b) := by
  intro fuel
  induction fuel with
  | zero => exact ⟨fun a b => by rw [addBorrow, add]; rfl, fun a b => by rw [subBorrow, sub]; rfl⟩
  | succ f ih =>
    constructor
    · intro a b
      rw [addBorrow, add]
      by_cases hs : a.negative = b.negative
      · rw [if_pos hs, if_pos hs]
        exact map_fst_map _ _ _
      · rw [if_neg hs, if_neg hs]
        by_cases hn : a.negative = true
        · rw [if_pos hn, if_pos hn]
          exact ih.2 _ _
        · rw [if_neg hn, if_neg hn]
          exact ih.2 _ _
    · intro a b
      rw [subBorrow, sub]
      by_cases heq : a.number = b.number ∧ a.negative = b.negative
      · rw [if_pos heq, if_pos heq]
        rfl
      · rw [if_neg heq, if_neg heq]
        by_cases hs : a.negative ≠ b.negative
        · rw [if_pos hs, if_pos hs]
          exact ih.1 _ _
        · rw [if_neg hs, if_neg hs]
          simp only []
          rw [← subLoopExit_difference, Option.map_map, Option.map_map]
          rfl

theorem mem_of_map_eq {α : Type} {x : Option α} {g : α → bigint × List Int}
    {r : bigint} {bs : List Int} (h : x.map g = some (r, bs)) :
    ∃ v, x = some v ∧ g v = (r, bs) := by
  cases x with
  | none => exact Option.noConfusion h
  | some v => exact ⟨v, rfl, Option.some.inj h⟩

/-- Every borrow loop that exits on the way of an addition or a subtraction
exits with the borrow `0`. -/
theorem borrow_zero : ∀ (fuel : Nat),
    (∀ a b r bs, addBorrow fuel a b = some (r, bs) → ∀ x ∈ bs, x = 0) ∧
    (∀ a b r bs, subBorrow fuel a b = some (r, bs) → ∀ x ∈ bs, x = 0) := by
  intro fuel
  induction fuel with
  | zero =>
    exact ⟨fun a b r bs h => by rw [addBorrow] at h; exact Option.noConfusion h,
      fun a b r bs h => by rw [subBorrow] at h; exact Option.noConfusion h⟩
  | succ f ih =>
    constructor
    · intro a b r bs h
      rw [addBorrow] at h
      by_cases hs : a.negative = b.negative
      · rw [if_pos hs] at h
        obtain ⟨v, _, hv⟩ := mem_of_map_eq h
        have hb : bs = [] := (Prod.mk.inj hv).2.symm
        rw [hb]
        intro x hx
        simp at hx
      · rw [if_neg hs] at h
        by_cases hn : a.negative = true
        · rw [if_pos hn] at h
          exact ih.2 _ _ _ _ h
        · rw [if_neg hn] at h
          exact ih.2 _ _ _ _ h
    · intro a b r bs h
      rw [subBorrow] at h
      by_cases heq : a.number = b.number ∧ a.negative = b.negative
      · rw [if_pos heq] at h
        have hb : bs = [] := (Prod.mk.inj (Option.some.inj h)).2.symm
        rw [hb]
        intro x hx
        simp at hx
      · rw [if_neg heq] at h
        by_cases hs : a.negative ≠ b.negative
        · rw [if_pos hs] at h
          exact ih.1 _ _ _ _ h
        · rw [if_neg hs] at h
          obtain ⟨v, hv1, hv2⟩ := mem_of_map_eq h
          have hb : [v.2.2.1] = bs := (Prod.mk.inj hv2).2
          have hst := subLoopExit_state _ _ _ _ _ _ _ v (le_refl _) hv1
          rw [← hb, hst.2.2]
          intro x hx
          exact List.mem_singleton.mp hx

/-! ## The claims of the specification: subtraction outside the negative pairs -/

theorem subBorrow_of_sub {a b r : bigint} {fuel : Nat} (h : sub fuel a b = some r) :
    ∃ bs, subBorrow fuel a b = some (r, bs) := by
  have hf := (borrow_fst fuel).2 a b
  rw [h] at hf
  cases hx : subBorrow fuel a b with
  | none => rw [hx] at hf; exact Option.noConfusion hf
  | some v =>
    rw [hx] at hf
    have hv : v.1 = r := Option.some.inj hf
    exact ⟨v.2, by rw [← hv]⟩

/-- In the path of two non-negative values of different magnitudes the borrow
loop runs exactly once. -/
theorem subBorrow_nonneg_length {a b r : bigint} {bs : List Int} {fuel : Nat}
    (hna : a.negative = false) (hnb : b.negative = false) (hne : a.number ≠ b.number)
    (h : subBorrow fuel a b = some (r, bs)) : bs.length = 1 := by
  cases fuel with
  | zero => rw [subBorrow] at h; exact Option.noConfusion h
  | succ f =>
    rw [subBorrow, if_neg (fun hc => hne hc.1), if_neg (by rw [hna, hnb]; simp)] at h
    obtain ⟨v, _, hv⟩ := mem_of_map_eq h
    rw [← (Prod.mk.inj hv).2]
    rfl

/-- C21: for well-formed `a` and `b` that are not both negative, `a - b`
terminates (every fuel from `2 * (len a + len b) + 3` on gives the same result),
every borrow loop run on the way exits with the final borrow `0`, and the result
is the well-formed value whose integer meaning is `int(a) - int(b)`; when both
are non-negative the operand taken as `larger` by the test `*this < num` has the
greater magnitude (strictly greater whenever the magnitudes differ, which is when
the loop is reached), and for different magnitudes the borrow loop runs once. -/
theorem sub_correct_not_both_negative (a b : bigint) (ha : wellFormed a) (hb : wellFormed b)
    (h : ¬ (a.negative = true ∧ b.negative = true)) :
    ∃ r, wellFormed r ∧ toInt r = toInt a - toInt b ∧
      (∀ fuel, 2 * (a.number.length + b.number.length) + 3 ≤ fuel →
        sub fuel a b = some r ∧
        ∃ borrows, subBorrow fuel a b = some (r, borrows) ∧ (∀ x ∈ borrows, x = 0) ∧
          (a.negative = false → b.negative = false → a.number ≠ b.number →
            borrows = [0])) ∧
      (a.negative = false → b.negative = false →
        natVal (if lt a b then a else b).number ≤ natVal (if lt a b then b else a).number) ∧
      (a.negative = false → b.negative = false → a.number ≠ b.number →
        natVal (if lt a b then a else b).number < natVal (if lt a b then b else a).number) := by
  obtain ⟨r, wr, vr, hr⟩ := sub_result ha hb (fun h1 h2 => absurd ⟨h1, h2⟩ h)
  refine ⟨r, wr, vr, fun fuel hf => ?_, fun hna hnb => ?_, fun hna hnb hne => ?_⟩
  · have hs := hr fuel hf
    obtain ⟨bs, hbs⟩ := subBorrow_of_sub hs
    have hz := (borrow_zero fuel).2 a b r bs hbs
    refine ⟨hs, bs, hbs, hz, fun hna hnb hne => ?_⟩
    have hl := subBorrow_nonneg_length hna hnb hne hbs
    cases bs with
    | nil => simp at hl
    | cons x xs =>
      have hx : xs = [] := List.length_eq_zero.mp (by simpa using hl)
      rw [hx, hz x (List.mem_cons_self _ _)]
  · have hlt := lt_magnitude ha hb (by rw [hna, hnb])
    rw [hna] at hlt
    simp only [Bool.false_eq_true, if_false] at hlt
    by_cases hc : lt a b = true
    · rw [if_pos hc, if_pos hc]
      exact Nat.le_of_lt (hlt.mp hc)
    · rw [if_neg hc, if_neg hc]
      exact Nat.le_of_not_lt (mt hlt.mpr hc)
  · have hlt := lt_magnitude ha hb (by rw [hna, hnb])
    rw [hna] at hlt
    simp only [Bool.false_eq_true, if_false] at hlt
    have hv : natVal a.number ≠ natVal b.number := fun hv =>
      hne (natVal_inj ha.2.1 hb.2.1 ha.2.2.1 hb.2.2.1 ha.1 hb.1 hv)
    by_cases hc : lt a b = true
    · rw [if_pos hc, if_pos hc]
      exact hlt.mp hc
    · rw [if_neg hc, if_neg hc]
      exact lt_of_le_of_ne (Nat.le_of_not_lt (mt hlt.mpr hc)) (Ne.symm hv)

/-- The subtraction `12345 - 67890`, whose operands are swapped, an instance of C21. -/
theorem sub_correct_not_both_negative_witness :
    wellFormed ⟨['1', '2', '3', '4', '5'], false⟩ ∧
      wellFormed ⟨['6', '7', '8', '9', '0'], false⟩ ∧
      ¬ ((false : Bool) = true ∧ (false : Bool) = true) ∧
      ∃ r, wellFormed r ∧
        toInt r = toInt ⟨['1', '2', '3', '4', '5'], false⟩
          - toInt ⟨['6', '7', '8', '9', '0'], false⟩ ∧
        (∀ fuel, 2 * (5 + 5) + 3 ≤ fuel →
          sub fuel ⟨['1', '2', '3', '4', '5'], false⟩ ⟨['6', '7', '8', '9', '0'], false⟩
            = some r ∧
          ∃ borrows, subBorrow fuel ⟨['1', '2', '3', '4', '5'], false⟩
              ⟨['6', '7', '8', '9', '0'], false⟩ = some (r, borrows) ∧
            (∀ x ∈ borrows, x = 0) ∧
            ((false : Bool) = false → (false : Bool) = false →
              ['1', '2', '3', '4', '5'] ≠ ['6', '7', '8', '9', '0'] → borrows = [0])) ∧
        ((false : Bool) = false → (false : Bool) = false →
          natVal (if lt ⟨['1', '2', '3', '4', '5'], false⟩ ⟨['6', '7', '8', '9', '0'], false⟩
              then (⟨['1', '2', '3', '4', '5'], false⟩ : bigint)
              else ⟨['6', '7', '8', '9', '0'], false⟩).number
            ≤ natVal (if lt ⟨['1', '2', '3', '4', '5'], false⟩
              ⟨['6', '7', '8', '9', '0'], false⟩
              then (⟨['6', '7', '8', '9', '0'], false⟩ : bigint)
              else ⟨['1', '2', '3', '4', '5'], false⟩).number) ∧
        ((false : Bool) = false → (false : Bool) = false →
          ['1', '2', '3', '4', '5'] ≠ ['6', '7', '8', '9', '0'] →
          natVal (if lt ⟨['1', '2', '3', '4', '5'], false⟩ ⟨['6', '7', '8', '9', '0'], false⟩
              then (⟨['1', '2', '3', '4', '5'], false⟩ : bigint)
              else ⟨['6', '7', '8', '9', '0'], false⟩).number
            < natVal (if lt ⟨['1', '2', '3', '4', '5'], false⟩
              ⟨['6', '7', '8', '9', '0'], false⟩
              then (⟨['6', '7', '8', '9', '0'], false⟩ : bigint)
              else ⟨['1', '2', '3', '4', '5'], false⟩).number) :=
  ⟨by decide, by decide, by decide,
    sub_correct_not_both_negative ⟨['1', '2', '3', '4', '5'], false⟩
      ⟨['6', '7', '8', '9', '0'], false⟩ (by decide) (by decide) (by decide)⟩

/-- The test `"12345" - "67890" == "-55545"` with its final borrow. -/
theorem scenario_subtraction_borrow :
    subBorrow 100 ⟨"12345".toList, false⟩ ⟨"67890".toList, false⟩
      = some (⟨"55545".toList, true⟩, [0]) := by
  decide

end BigInt
